import Mathlib

/-!
# Verification of the dotsecrets secret-access core

A shallow embedding, in Lean 4, of the core of the `dotsecrets` repository:

* the chainable value wrappers of `src/secretsProxy.ts`
  (`SecretValue`, `NumberSecretValue`, `BooleanSecretValue`, `parseBoolean`,
  the `secrets` proxy and the `preloadExecuted` flag),
* the resolution cache of `src/secretsManager.ts` (`SecretsManager` with its
  two caches, `initialize`, `getSecretSync`, `getPublicSync`, `loadSecret`),
* the key normalizer of `src/utils/providers.ts`
  (`validateSecretName`, `normalizeSecretName`, `providerMap`),
* the variable-expansion pass of `src/config.ts` (`expandVariables`),
* the bulk preload of `src/preload.ts` (`preloadAllSecrets`).

Modelling conventions:

* A settled JavaScript promise is an `Except String α`: `.ok v` is a promise
  resolved with `v`, `.error e` one rejected with an `Error` whose message is
  `e`.  `promise.then(f)` with a throwing `f` is `Except.bind`.
* A method that can throw synchronously returns `Except String β`, the outer
  `.error` being the synchronous throw.
* JavaScript numbers are modelled by `Rat` (the claims under study concern
  order comparisons and integrality, not float rounding; `NaN` is represented
  by `Option.none` at the parse boundary, as the code eliminates it there).
* Error message strings keep the fixed text of the source; values interpolated
  into messages by template literals are elided, since no claim depends on
  them.
* Mutation of the process-wide singletons is modelled by explicit state
  passing (`SecretsManager` values, a `World` holding the manager and the
  `preloadExecuted` flag).
-/

/-- `isThrow r` is true when the synchronous computation `r` threw, or when the
settled promise `r` was rejected. -/
def isThrow {ε α : Type} : Except ε α → Bool
  | .error _ => true
  | .ok _ => false

@[simp] theorem isThrow_error {ε α : Type} (e : ε) : isThrow (α := α) (.error e) = true := rfl

@[simp] theorem isThrow_ok {ε α : Type} (a : α) : isThrow (ε := ε) (.ok a) = false := rfl

/-- The JavaScript builtin `String.prototype.toLowerCase`, modelled on its
ASCII fragment: `Char.toLower` shifts exactly the range `A`–`Z` by 32, which
is what `toLowerCase` does on ASCII (the material of the claims is ASCII). -/
def jsToLowerCase (s : String) : String := ⟨s.data.map Char.toLower⟩

/-- The JavaScript builtin `String.prototype.toUpperCase`, modelled on its
ASCII fragment (`Char.toUpper` shifts exactly `a`–`z` by 32). -/
def jsToUpperCase (s : String) : String := ⟨s.data.map Char.toUpper⟩

/-- `parseBoolean` (secretsProxy.ts:44): `"true" => true`, `"false" => false`
after lower-casing, `null` (here `none`) otherwise. -/
def parseBoolean (str : String) : Option Bool :=
  let lower := jsToLowerCase str
  if lower = "true" then some true
  else if lower = "false" then some false
  else none

/-- The string wrapper `SecretValue` (secretsProxy.ts:79): the key name (for
diagnostics), the optional synchronously available value, and the promise of
the value. -/
structure SecretValue where
  secretName : String
  syncValue : Option String
  asyncValue : Except String String
  deriving Repr

/-- `SecretValue.required` (secretsProxy.ts:120).  The sync guard is
`newSync !== undefined && newSync === ""`; the async step throws on `!val`,
which for a string means the empty string. -/
def SecretValue.required (s : SecretValue) : Except String SecretValue :=
  let newSync := s.syncValue
  if newSync.any (fun v => v == "") then
    .error "[dotsecrets]: Validation exception => Secret is required but not available (or empty)."
  else
    let newAsync := s.asyncValue.bind fun val =>
      if val == "" then
        .error "[dotsecrets]: Validation exception => Secret is required but got empty string."
      else .ok val
    .ok ⟨s.secretName, newSync, newAsync⟩

/-- `SecretValue.notEmpty` (secretsProxy.ts:145): throws when the length is
zero, on both channels. -/
def SecretValue.notEmpty (s : SecretValue) : Except String SecretValue :=
  let newSync := s.syncValue
  if newSync.any (fun v => v.length == 0) then
    .error "[dotsecrets]: Validation exception => String is empty (notEmpty() check failed)."
  else
    let newAsync := s.asyncValue.bind fun val =>
      if val.length == 0 then
        .error "[dotsecrets]: Validation exception => String is empty (notEmpty() check failed)."
      else .ok val
    .ok ⟨s.secretName, newSync, newAsync⟩

/-- `SecretValue.lengthBetween` (secretsProxy.ts:187): inclusive length range
check on both channels.  JavaScript `length` counts UTF-16 units; `String.length`
counts scalar values — they agree on the BMP material of the claims. -/
def SecretValue.lengthBetween (s : SecretValue) (min max : Int) : Except String SecretValue :=
  let newSync := s.syncValue
  if newSync.any (fun v => decide ((v.length : Int) < min) || decide (max < (v.length : Int))) then
    .error "[dotsecrets]: Validation exception => String length out of range."
  else
    let newAsync := s.asyncValue.bind fun val =>
      if decide ((val.length : Int) < min) || decide (max < (val.length : Int)) then
        .error "[dotsecrets]: Validation exception => String length out of range."
      else .ok val
    .ok ⟨s.secretName, newSync, newAsync⟩

/-- `SecretValue.regex` (secretsProxy.ts:224).  A compiled JavaScript `RegExp`
is modelled by its `test` function `pattern : String → Bool`; `msg` is the
optional custom message. -/
def SecretValue.regex (s : SecretValue) (pattern : String → Bool) (msg : Option String) :
    Except String SecretValue :=
  let newSync := s.syncValue
  if newSync.any (fun v => !pattern v) then
    .error (msg.getD "[dotsecrets]: Validation exception => String does not match regex")
  else
    let newAsync := s.asyncValue.bind fun val =>
      if !pattern val then
        .error (msg.getD "[dotsecrets]: Validation exception => String does not match regex")
      else .ok val
    .ok ⟨s.secretName, newSync, newAsync⟩

/-- The numeric wrapper `NumberSecretValue` (secretsProxy.ts:467). -/
structure NumberSecretValue where
  secretName : String
  syncValue : Option Rat
  asyncValue : Except String Rat
  deriving Repr

/-- `SecretValue.number` (secretsProxy.ts:293).  The JavaScript builtin
`Number(string)` is external to the repository and is passed in as
`jsNumber : String → Option Rat`, `none` standing for `NaN` (the only outcome
the code distinguishes, via `isNaN`). -/
def SecretValue.number (s : SecretValue) (jsNumber : String → Option Rat) :
    Except String NumberSecretValue :=
  let newAsync : Except String Rat := s.asyncValue.bind fun val =>
    match jsNumber val with
    | none => .error "[dotsecrets]: Validation exception => Cannot convert to number"
    | some parsed => .ok parsed
  match s.syncValue with
  | some v =>
    match jsNumber v with
    | none => .error "[dotsecrets]: Validation exception => Cannot convert to number"
    | some parsed => .ok ⟨s.secretName, some parsed, newAsync⟩
  | none => .ok ⟨s.secretName, none, newAsync⟩

/-- The boolean wrapper `BooleanSecretValue` (secretsProxy.ts:769). -/
structure BooleanSecretValue where
  secretName : String
  syncValue : Option Bool
  asyncValue : Except String Bool
  deriving Repr

/-- `SecretValue.boolean` (secretsProxy.ts:332): converts through
`parseBoolean` on both channels, throwing when it returns `null`. -/
def SecretValue.boolean (s : SecretValue) : Except String BooleanSecretValue :=
  let newAsync : Except String Bool := s.asyncValue.bind fun val =>
    match parseBoolean val with
    | none => .error "[dotsecrets]: Validation exception => Cannot convert to boolean"
    | some b => .ok b
  match s.syncValue with
  | some v =>
    match parseBoolean v with
    | none => .error "[dotsecrets]: Validation exception => Cannot convert to boolean"
    | some b => .ok ⟨s.secretName, some b, newAsync⟩
  | none => .ok ⟨s.secretName, none, newAsync⟩

/-- `SecretValue.valueOf` (secretsProxy.ts:406): the synchronous coercion.
`toString` and `Symbol.toPrimitive` delegate to it unchanged. -/
def SecretValue.valueOf (s : SecretValue) : Except String String :=
  match s.syncValue with
  | none =>
    .error ("[dotsecrets]: Validation exception => Secret \"" ++ s.secretName ++
      "\" accessed synchronously without preload. You must either run await preloadAllSecrets() first or use await secrets." ++ s.secretName)
  | some v => .ok v

/-- `NumberSecretValue.min` (secretsProxy.ts:529). -/
def NumberSecretValue.min (s : NumberSecretValue) (n : Rat) : Except String NumberSecretValue :=
  let newSync := s.syncValue
  if newSync.any (fun v => decide (v < n)) then
    .error "[dotsecrets]: Validation exception => Number is less than min."
  else
    let newAsync := s.asyncValue.bind fun val =>
      if decide (val < n) then
        .error "[dotsecrets]: Validation exception => Number is less than min."
      else .ok val
    .ok ⟨s.secretName, newSync, newAsync⟩

/-- `NumberSecretValue.max` (secretsProxy.ts:555). -/
def NumberSecretValue.max (s : NumberSecretValue) (n : Rat) : Except String NumberSecretValue :=
  let newSync := s.syncValue
  if newSync.any (fun v => decide (n < v)) then
    .error "[dotsecrets]: Validation exception => Number is greater than max."
  else
    let newAsync := s.asyncValue.bind fun val =>
      if decide (n < val) then
        .error "[dotsecrets]: Validation exception => Number is greater than max."
      else .ok val
    .ok ⟨s.secretName, newSync, newAsync⟩

/-- `NumberSecretValue.between` (secretsProxy.ts:586): throws when
`val < min || val > max`, so the range is inclusive at both ends. -/
def NumberSecretValue.between (s : NumberSecretValue) (min max : Rat) :
    Except String NumberSecretValue :=
  let newSync := s.syncValue
  if newSync.any (fun v => decide (v < min) || decide (max < v)) then
    .error "[dotsecrets]: Validation exception => Number is out of range."
  else
    let newAsync := s.asyncValue.bind fun val =>
      if decide (val < min) || decide (max < val) then
        .error "[dotsecrets]: Validation exception => Number is out of range."
      else .ok val
    .ok ⟨s.secretName, newSync, newAsync⟩

/-- `NumberSecretValue.positive` (secretsProxy.ts:617): throws on `val <= 0`. -/
def NumberSecretValue.positive (s : NumberSecretValue) : Except String NumberSecretValue :=
  let newSync := s.syncValue
  if newSync.any (fun v => decide (v ≤ 0)) then
    .error "[dotsecrets]: Validation exception => Number is not positive."
  else
    let newAsync := s.asyncValue.bind fun val =>
      if decide (val ≤ 0) then
        .error "[dotsecrets]: Validation exception => Number is not positive."
      else .ok val
    .ok ⟨s.secretName, newSync, newAsync⟩

/-- `NumberSecretValue.negative` (secretsProxy.ts:646): throws on `val >= 0`. -/
def NumberSecretValue.negative (s : NumberSecretValue) : Except String NumberSecretValue :=
  let newSync := s.syncValue
  if newSync.any (fun v => decide (0 ≤ v)) then
    .error "[dotsecrets]: Validation exception => Number is not negative."
  else
    let newAsync := s.asyncValue.bind fun val =>
      if decide (0 ≤ val) then
        .error "[dotsecrets]: Validation exception => Number is not negative."
      else .ok val
    .ok ⟨s.secretName, newSync, newAsync⟩

/-- `NumberSecretValue.integer` (secretsProxy.ts:675): throws when
`Number.isInteger` is false; on `Rat` that builtin is `den = 1`. -/
def NumberSecretValue.integer (s : NumberSecretValue) : Except String NumberSecretValue :=
  let newSync := s.syncValue
  if newSync.any (fun v => !(v.den == 1)) then
    .error "[dotsecrets]: Validation exception => Number is not an integer."
  else
    let newAsync := s.asyncValue.bind fun val =>
      if !(val.den == 1) then
        .error "[dotsecrets]: Validation exception => Number is not an integer."
      else .ok val
    .ok ⟨s.secretName, newSync, newAsync⟩

/-- `NumberSecretValue.valueOf` (secretsProxy.ts:706). -/
def NumberSecretValue.valueOf (s : NumberSecretValue) : Except String Rat :=
  match s.syncValue with
  | none =>
    .error ("[dotsecrets]: Validation exception => Secret \"" ++ s.secretName ++
      "\" of type number accessed synchronously without preload. You must either run await preloadAllSecrets() first or use await secrets." ++ s.secretName)
  | some v => .ok v

/-- `BooleanSecretValue.required` (secretsProxy.ts:809): unlike the string
`required`, it throws synchronously exactly when `syncValue` is `undefined`
and attaches nothing to the async channel. -/
def BooleanSecretValue.required (s : BooleanSecretValue) : Except String BooleanSecretValue :=
  if s.syncValue.isNone then
    .error "[dotsecrets]: Validation exception => Boolean secret is required but not available."
  else .ok ⟨s.secretName, s.syncValue, s.asyncValue⟩

/-- `BooleanSecretValue.true` (secretsProxy.ts:836): throws when the value is
not `true`, on both channels. -/
def BooleanSecretValue.true (s : BooleanSecretValue) : Except String BooleanSecretValue :=
  let newSync := s.syncValue
  if newSync.any (fun v => !(v == Bool.true)) then
    .error "[dotsecrets]: Validation exception => Boolean is not true."
  else
    let newAsync := s.asyncValue.bind fun val =>
      if !(val == Bool.true) then
        .error "[dotsecrets]: Validation exception => Boolean is not true."
      else .ok val
    .ok ⟨s.secretName, newSync, newAsync⟩

/-- `BooleanSecretValue.false` (secretsProxy.ts:866): throws when the value is
not `false`, on both channels. -/
def BooleanSecretValue.false (s : BooleanSecretValue) : Except String BooleanSecretValue :=
  let newSync := s.syncValue
  if newSync.any (fun v => !(v == Bool.false)) then
    .error "[dotsecrets]: Validation exception => Boolean is not false."
  else
    let newAsync := s.asyncValue.bind fun val =>
      if !(val == Bool.false) then
        .error "[dotsecrets]: Validation exception => Boolean is not false."
      else .ok val
    .ok ⟨s.secretName, newSync, newAsync⟩

/-- `BooleanSecretValue.valueOf` (secretsProxy.ts:898). -/
def BooleanSecretValue.valueOf (s : BooleanSecretValue) : Except String Bool :=
  match s.syncValue with
  | none =>
    .error ("[dotsecrets]: Validation exception => Secret \"" ++ s.secretName ++
      "\" of type boolean accessed synchronously without preload. You must either run await preloadAllSecrets() first or use await secrets." ++ s.secretName)
  | some v => .ok v

/-! ## The sync/async validation contract (claims C1, C7, C8)

`XValidatorOk op fail` captures the contract the specification states for a
validation operator whose rule rejects exactly the values on which `fail` is
true: with a sync value present the operator throws synchronously iff the
value violates the rule; with the sync value absent it never throws
synchronously; and it attaches the identical rule to the async channel, so
that for the same underlying source value the two channels agree on whether
validation fails. -/

/-- The contract, for operators on the string wrapper. -/
def StrValidatorOk (op : SecretValue → Except String SecretValue) (fail : String → Bool) :
    Prop :=
  ∀ name v a,
    (isThrow (op ⟨name, some v, a⟩) = fail v) ∧
    (isThrow (op ⟨name, none, a⟩) = Bool.false) ∧
    (∀ w, op ⟨name, none, .ok v⟩ = .ok w → isThrow w.asyncValue = fail v) ∧
    (∀ w, op ⟨name, some v, .ok v⟩ = .ok w → isThrow w.asyncValue = Bool.false)

/-- The contract, for operators on the numeric wrapper. -/
def NumValidatorOk (op : NumberSecretValue → Except String NumberSecretValue)
    (fail : Rat → Bool) : Prop :=
  ∀ name v a,
    (isThrow (op ⟨name, some v, a⟩) = fail v) ∧
    (isThrow (op ⟨name, none, a⟩) = Bool.false) ∧
    (∀ w, op ⟨name, none, .ok v⟩ = .ok w → isThrow w.asyncValue = fail v) ∧
    (∀ w, op ⟨name, some v, .ok v⟩ = .ok w → isThrow w.asyncValue = Bool.false)

/-- The contract, for operators on the boolean wrapper. -/
def BoolValidatorOk (op : BooleanSecretValue → Except String BooleanSecretValue)
    (fail : Bool → Bool) : Prop :=
  ∀ name v a,
    (isThrow (op ⟨name, some v, a⟩) = fail v) ∧
    (isThrow (op ⟨name, none, a⟩) = Bool.false) ∧
    (∀ w, op ⟨name, none, .ok v⟩ = .ok w → isThrow w.asyncValue = fail v) ∧
    (∀ w, op ⟨name, some v, .ok v⟩ = .ok w → isThrow w.asyncValue = Bool.false)

/-- Every string operator of the source's `guard sync; rebind async` shape
satisfies the contract. -/
theorem strValidator_shape (fail : String → Bool) (e1 e2 : String) :
    StrValidatorOk (fun s =>
      if s.syncValue.any fail then .error e1
      else .ok ⟨s.secretName, s.syncValue, s.asyncValue.bind fun val =>
        if fail val then .error e2 else .ok val⟩) fail := by
  intro name v a
  refine ⟨?_, ?_, ?_, ?_⟩
  · cases hf : fail v <;> simp [Option.any, hf]
  · simp [Option.any]
  · intro w hw
    simp only [Option.any, Bool.false_eq_true, if_false] at hw
    cases hw
    cases hf : fail v <;> simp [Except.bind, hf]
  · intro w hw
    cases hf : fail v with
    | true => simp [Option.any, hf] at hw
    | false =>
      simp only [Option.any, hf, Bool.false_eq_true, if_false, Except.ok.injEq] at hw
      subst hw
      simp [Except.bind, hf]

/-- Every numeric operator of the source's shape satisfies the contract. -/
theorem numValidator_shape (fail : Rat → Bool) (e1 e2 : String) :
    NumValidatorOk (fun s =>
      if s.syncValue.any fail then .error e1
      else .ok ⟨s.secretName, s.syncValue, s.asyncValue.bind fun val =>
        if fail val then .error e2 else .ok val⟩) fail := by
  intro name v a
  refine ⟨?_, ?_, ?_, ?_⟩
  · cases hf : fail v <;> simp [Option.any, hf]
  · simp [Option.any]
  · intro w hw
    simp only [Option.any, Bool.false_eq_true, if_false] at hw
    cases hw
    cases hf : fail v <;> simp [Except.bind, hf]
  · intro w hw
    cases hf : fail v with
    | true => simp [Option.any, hf] at hw
    | false =>
      simp only [Option.any, hf, Bool.false_eq_true, if_false, Except.ok.injEq] at hw
      subst hw
      simp [Except.bind, hf]

/-- Every boolean operator of the source's shape satisfies the contract. -/
theorem boolValidator_shape (fail : Bool → Bool) (e1 e2 : String) :
    BoolValidatorOk (fun s =>
      if s.syncValue.any fail then .error e1
      else .ok ⟨s.secretName, s.syncValue, s.asyncValue.bind fun val =>
        if fail val then .error e2 else .ok val⟩) fail := by
  intro name v a
  refine ⟨?_, ?_, ?_, ?_⟩
  · cases hf : fail v <;> simp [Option.any, hf]
  · simp [Option.any]
  · intro w hw
    simp only [Option.any, Bool.false_eq_true, if_false] at hw
    cases hw
    cases hf : fail v <;> simp [Except.bind, hf]
  · intro w hw
    cases hf : fail v with
    | true => simp [Option.any, hf] at hw
    | false =>
      simp only [Option.any, hf, Bool.false_eq_true, if_false, Except.ok.injEq] at hw
      subst hw
      simp [Except.bind, hf]

/-- C1 counterexample: the claim asserts that every listed validation operator
(the sources include `BooleanSecretValue.required`) does not throw
synchronously when the wrapper's sync value is absent.  `required` on a
boolean wrapper whose sync value is absent — e.g. the wrapper for a key that
is only available asynchronously — throws synchronously. -/
theorem booleanRequired_throws_with_sync_absent :
    isThrow (BooleanSecretValue.required ⟨"FLAG", none, Except.ok Bool.true⟩) = Bool.true := rfl

/-- C1 (amended): every listed validation operator except the boolean
`required` satisfies the claimed contract — synchronous fail-fast exactly on a
present-and-violating sync value, no synchronous throw when the sync value is
absent, and the identical rule attached to the async channel, so both channels
agree on the validation outcome for the same underlying source value.
`BooleanSecretValue.required` instead throws synchronously exactly when the
sync value is absent, and attaches no rule at all to the async channel. -/
theorem validation_operators_sync_async_contract :
    StrValidatorOk SecretValue.required (fun v => v == "") ∧
    StrValidatorOk SecretValue.notEmpty (fun v => v.length == 0) ∧
    (∀ mn mx : Int, StrValidatorOk (fun s => s.lengthBetween mn mx)
      (fun v => decide ((v.length : Int) < mn) || decide (mx < (v.length : Int)))) ∧
    (∀ (p : String → Bool) msg, StrValidatorOk (fun s => s.regex p msg) (fun v => !p v)) ∧
    (∀ n : Rat, NumValidatorOk (fun s => s.min n) (fun v => decide (v < n))) ∧
    (∀ n : Rat, NumValidatorOk (fun s => s.max n) (fun v => decide (n < v))) ∧
    (∀ mn mx : Rat, NumValidatorOk (fun s => s.between mn mx)
      (fun v => decide (v < mn) || decide (mx < v))) ∧
    NumValidatorOk NumberSecretValue.positive (fun v => decide (v ≤ 0)) ∧
    NumValidatorOk NumberSecretValue.negative (fun v => decide (0 ≤ v)) ∧
    NumValidatorOk NumberSecretValue.integer (fun v => !(v.den == 1)) ∧
    BoolValidatorOk BooleanSecretValue.true (fun b => !(b == Bool.true)) ∧
    BoolValidatorOk BooleanSecretValue.false (fun b => !(b == Bool.false)) ∧
    (∀ name (sv : Option Bool) a,
      isThrow (BooleanSecretValue.required ⟨name, sv, a⟩) = sv.isNone) ∧
    (∀ name (b : Bool) a,
      BooleanSecretValue.required ⟨name, some b, a⟩ = .ok ⟨name, some b, a⟩) := by
  refine ⟨strValidator_shape _ _ _, strValidator_shape _ _ _,
    fun mn mx => strValidator_shape _ _ _,
    fun p msg => strValidator_shape _ _ _,
    fun n => numValidator_shape _ _ _,
    fun n => numValidator_shape _ _ _,
    fun mn mx => numValidator_shape _ _ _,
    numValidator_shape _ _ _, numValidator_shape _ _ _, numValidator_shape _ _ _,
    boolValidator_shape _ _ _, boolValidator_shape _ _ _,
    ?_, ?_⟩
  · intro name sv a
    cases sv <;> simp [BooleanSecretValue.required, Option.isNone]
  · intro name b a
    simp [BooleanSecretValue.required, Option.isNone]

/-- C7: `boolean()` parses exactly the literals `"true"` and `"false"`,
case-insensitively, to `true` and `false`; every other string (for instance
`"1"` or `"yes"`) is a parse failure, which throws synchronously when a sync
value is present and rejects the async channel. -/
theorem boolean_conversion_strict :
    (∀ s, parseBoolean s = some Bool.true ↔ jsToLowerCase s = "true") ∧
    (∀ s, parseBoolean s = some Bool.false ↔ jsToLowerCase s = "false") ∧
    parseBoolean "true" = some Bool.true ∧
    parseBoolean "TRUE" = some Bool.true ∧
    parseBoolean "False" = some Bool.false ∧
    parseBoolean "1" = none ∧
    parseBoolean "yes" = none ∧
    (∀ name v a, isThrow (SecretValue.boolean ⟨name, some v, a⟩) = (parseBoolean v).isNone) ∧
    (∀ name a, isThrow (SecretValue.boolean ⟨name, none, a⟩) = Bool.false) ∧
    (∀ name v w, SecretValue.boolean ⟨name, none, .ok v⟩ = .ok w →
      w.asyncValue = match parseBoolean v with
        | some b => .ok b
        | none => .error "[dotsecrets]: Validation exception => Cannot convert to boolean") ∧
    (∀ name v b w, parseBoolean v = some b → SecretValue.boolean ⟨name, some v, .ok v⟩ = .ok w →
      w.syncValue = some b ∧ w.asyncValue = .ok b) := by
  refine ⟨?_, ?_, by decide, by decide, by decide, by decide, by decide, ?_, ?_, ?_, ?_⟩
  · intro s
    unfold parseBoolean
    by_cases h1 : jsToLowerCase s = "true"
    · simp [h1]
    · by_cases h2 : jsToLowerCase s = "false" <;> simp [h1, h2]
  · intro s
    unfold parseBoolean
    by_cases h1 : jsToLowerCase s = "true"
    · simp [h1]
    · by_cases h2 : jsToLowerCase s = "false" <;> simp [h1, h2]
  · intro name v a
    cases h : parseBoolean v <;> simp [SecretValue.boolean, h, Option.isNone]
  · intro name a
    simp [SecretValue.boolean]
  · intro name v w hw
    simp only [SecretValue.boolean] at hw
    cases hw
    cases h : parseBoolean v <;> simp [Except.bind, h]
  · intro name v b w hb hw
    simp only [SecretValue.boolean, hb] at hw
    cases hw
    simp [Except.bind, hb]

/-- C8: `.number().between(a,b)` throws iff the parsed numeric value is
strictly below `a` or strictly above `b` — on the sync path when a sync value
is present, and on the async channel always — and in particular does not
throw at the boundaries themselves (the range is inclusive). -/
theorem number_between_inclusive :
    (∀ name (v mn mx : Rat) a,
      isThrow (NumberSecretValue.between ⟨name, some v, a⟩ mn mx) =
        (decide (v < mn) || decide (mx < v))) ∧
    (∀ name (mn mx : Rat) a,
      isThrow (NumberSecretValue.between ⟨name, none, a⟩ mn mx) = Bool.false) ∧
    (∀ name (v mn mx : Rat) w,
      NumberSecretValue.between ⟨name, none, .ok v⟩ mn mx = .ok w →
        isThrow w.asyncValue = (decide (v < mn) || decide (mx < v))) ∧
    (∀ name (mn mx : Rat) a, mn ≤ mx →
      isThrow (NumberSecretValue.between ⟨name, some mn, a⟩ mn mx) = Bool.false) ∧
    (∀ name (mn mx : Rat) a, mn ≤ mx →
      isThrow (NumberSecretValue.between ⟨name, some mx, a⟩ mn mx) = Bool.false) ∧
    (∀ (jsNumber : String → Option Rat) name str (v mn mx : Rat), jsNumber str = some v →
      isThrow ((SecretValue.number ⟨name, some str, .ok str⟩ jsNumber).bind
          (fun nw => nw.between mn mx)) =
        (decide (v < mn) || decide (mx < v))) := by
  have base : ∀ mn mx : Rat, NumValidatorOk (fun s => NumberSecretValue.between s mn mx)
      (fun v => decide (v < mn) || decide (mx < v)) :=
    fun mn mx => numValidator_shape _ _ _
  refine ⟨?_, ?_, ?_, ?_, ?_, ?_⟩
  · intro name v mn mx a
    exact (base mn mx name v a).1
  · intro name mn mx a
    exact (base mn mx name 0 a).2.1
  · intro name v mn mx w hw
    exact (base mn mx name v (.ok v)).2.2.1 w hw
  · intro name mn mx a h
    have h2 : ¬ (mx < mn) := not_lt.mpr h
    simp [NumberSecretValue.between, Option.any, lt_irrefl, h2]
  · intro name mn mx a h
    have h2 : ¬ (mx < mn) := not_lt.mpr h
    simp [NumberSecretValue.between, Option.any, lt_irrefl, h2]
  · intro jsNumber name str v mn mx hp
    simp only [SecretValue.number, hp, Except.bind]
    exact (base mn mx name v _).1

/-! ## The key normalizer (src/utils/providers.ts)

Provider keys are JavaScript strings; the regexes and replaces of
`validateSecretName` / `normalizeSecretName` are modelled character-exactly on
`List Char`.  The character classes of the source's regexes are ASCII ranges,
written here on `Char.toNat`. -/

/-- The regex class `[A-Z]`. -/
def isUpperAZ (c : Char) : Bool := 65 ≤ c.toNat && c.toNat ≤ 90

/-- The regex class `[a-z]`. -/
def isLowerAZ (c : Char) : Bool := 97 ≤ c.toNat && c.toNat ≤ 122

/-- The regex class `[0-9]`. -/
def isDigit09 (c : Char) : Bool := 48 ≤ c.toNat && c.toNat ≤ 57

/-- The regex class `[A-Za-z]`. -/
def isAlphaChar (c : Char) : Bool := isUpperAZ c || isLowerAZ c

/-- The regex class `[A-Za-z0-9]`. -/
def isAlnumChar (c : Char) : Bool := isAlphaChar c || isDigit09 c

/-- The whitespace class of JavaScript's `\s` and `String.prototype.trim`,
modelled on its ASCII fragment (tab, LF, VT, FF, CR, space). -/
def isJsWhitespace (c : Char) : Bool :=
  c.toNat == 32 || (9 ≤ c.toNat && c.toNat ≤ 13)

/-- Drop the maximal run satisfying `p` from both ends: the model of
`.replace(/^X+|X+$/g, "")` for a character class `X`, and (with
`isJsWhitespace`) of `String.prototype.trim`. -/
def trimEnds (p : Char → Bool) (l : List Char) : List Char :=
  ((l.dropWhile p).reverse.dropWhile p).reverse

theorem length_dropWhile_le (p : Char → Bool) (cs : List Char) :
    (cs.dropWhile p).length ≤ cs.length := by
  induction cs with
  | nil => simp
  | cons c cs ih =>
    rw [List.dropWhile_cons]
    split
    · exact Nat.le_succ_of_le ih
    · simp

/-- Replace each maximal nonempty run of characters satisfying `p` by the
single character `r`: the model of `.replace(/X+/g, "r")` for a character
class `X` (a global regex consumes maximal runs left to right). -/
def collapseRuns (p : Char → Bool) (r : Char) : List Char → List Char
  | [] => []
  | c :: cs =>
    if p c then r :: collapseRuns p r (cs.dropWhile p)
    else c :: collapseRuns p r cs
termination_by l => l.length
decreasing_by
  · simp only [List.length_cons]
    exact Nat.lt_succ_of_le (length_dropWhile_le p cs)
  · simp

/-- The providers of `utils/providers.ts` (`type Provider`). -/
inductive Provider where
  | azure | bytehide | aws | gcp | ibm | doppler | cyberark | akeyless
  | hashicorp | keeper | onepassword | env
  deriving DecidableEq, Repr

/-- `providerMap` (utils/providers.ts:15): plugin display name → provider key
format.  A JavaScript record lookup of an unknown name yields `undefined`,
here `none` (`cyberark` and `akeyless` have no entry). -/
def providerMap (pluginName : String) : Option Provider :=
  if pluginName = "AWS Secrets Manager" then some .aws
  else if pluginName = "ByteHide Secrets" then some .bytehide
  else if pluginName = "Azure Key Vault" then some .azure
  else if pluginName = "Local Secrets" then some .env
  else if pluginName = "HashiCorp Vault" then some .hashicorp
  else if pluginName = "1Password" then some .onepassword
  else if pluginName = "Google Cloud Secret Manager" then some .gcp
  else if pluginName = "IBM Secrets Manager" then some .ibm
  else if pluginName = "Keeper Secrets Manager" then some .keeper
  else if pluginName = "Doppler Secrets Manager" then some .doppler
  else none

/-- The `validators` record (utils/providers.ts:28), one regex per provider,
each modelled as a decidable predicate on the character list:

* azure, bytehide: `^[0-9A-Za-z]([0-9A-Za-z-]{0,125}[0-9A-Za-z])?$`
* aws: `^([A-Za-z0-9_+=.@-]){1,512}$`
* gcp: `^[A-Za-z0-9_-]{1,255}$`
* ibm: `^[A-Za-z0-9][A-Za-z0-9_.-]{0,254}[A-Za-z0-9]$`
* doppler: `^[A-Z][A-Z0-9_]*$`
* cyberark: `^[A-Za-z0-9]{1,28}$`
* akeyless, keeper, onepassword: `^.+$` (nonempty, `.` excludes line
  terminators)
* hashicorp: `^[A-Za-z0-9][A-Za-z0-9\-\/]*[A-Za-z0-9]$`
* env: `^[A-Za-z_][A-Za-z0-9_]*$` -/
def validatorTest (provider : Provider) (l : List Char) : Bool :=
  match provider with
  | .azure | .bytehide =>
    match l with
    | [] => Bool.false
    | [c] => isAlnumChar c
    | c :: cs =>
      isAlnumChar c && !cs.isEmpty && isAlnumChar (cs.getLastD ' ') &&
        cs.dropLast.all (fun d => isAlnumChar d || d == '-') && cs.dropLast.length ≤ 125
  | .aws =>
    !l.isEmpty && l.length ≤ 512 &&
      l.all (fun c => isAlnumChar c || c == '_' || c == '+' || c == '=' || c == '.' ||
        c == '@' || c == '-')
  | .gcp =>
    !l.isEmpty && l.length ≤ 255 && l.all (fun c => isAlnumChar c || c == '_' || c == '-')
  | .ibm =>
    match l with
    | [] => Bool.false
    | c :: cs =>
      isAlnumChar c && !cs.isEmpty && isAlnumChar (cs.getLastD ' ') &&
        cs.dropLast.all (fun d => isAlnumChar d || d == '_' || d == '.' || d == '-') &&
        cs.length ≤ 255
  | .doppler =>
    match l with
    | [] => Bool.false
    | c :: cs => isUpperAZ c && cs.all (fun d => isUpperAZ d || isDigit09 d || d == '_')
  | .cyberark => !l.isEmpty && l.length ≤ 28 && l.all isAlnumChar
  | .akeyless | .keeper | .onepassword =>
    !l.isEmpty && l.all (fun c => !(c == '\n' || c == '\r' || c.toNat == 8232 || c.toNat == 8233))
  | .hashicorp =>
    match l with
    | [] => Bool.false
    | c :: cs =>
      isAlnumChar c && !cs.isEmpty && isAlnumChar (cs.getLastD ' ') &&
        cs.dropLast.all (fun d => isAlnumChar d || d == '-' || d == '/')
  | .env =>
    match l with
    | [] => Bool.false
    | c :: cs =>
      (isAlphaChar c || c == '_') && cs.all (fun d => isAlnumChar d || d == '_')

/-- `validateSecretName` (utils/providers.ts:43): `validators[provider].test(name)`. -/
def validateSecretName (provider : Provider) (name : String) : Bool :=
  validatorTest provider name.data

/-- The doppler sanitize step `.replace(/[^A-Z0-9_]/g, "_")`. -/
def dopplerSanitizeChar (c : Char) : Char :=
  if isUpperAZ c || isDigit09 c || c == '_' then c else '_'

/-- The doppler edge strip `.replace(/(^[^A-Z]|[^A-Z0-9_]$)+/g, "")`.

The pattern's first alternative is anchored at the start and consumes one
character, the second consumes the string's final character; in one global
left-to-right pass the replace therefore removes exactly: the first character
when it is not `A`–`Z`, and the last remaining character when it is not in
`[A-Z0-9_]`. -/
def dopplerEdgeStrip (l : List Char) : List Char :=
  let l1 := match l with
    | [] => []
    | c :: cs => if isUpperAZ c then c :: cs else cs
  match l1.getLast? with
  | some c => if isUpperAZ c || isDigit09 c || c == '_' then l1 else l1.dropLast
  | none => l1

/-- The character class kept by the aws normalization filter
(`[A-Za-z0-9_+=.@-]`). -/
def isAwsChar (c : Char) : Bool :=
  isAlnumChar c || c == '_' || c == '+' || c == '=' || c == '.' || c == '@' || c == '-'

/-- `normalizeSecretName` (utils/providers.ts:48): `key.trim()` followed by the
provider-specific rewriting pipeline, each `.replace` modelled by the
combinators above. -/
def normalizeSecretName (provider : Provider) (key : String) : String :=
  let base := trimEnds isJsWhitespace key.data
  match provider with
  | .env => ⟨base.map Char.toUpper⟩
  | .doppler =>
    ⟨dopplerEdgeStrip ((base.map Char.toUpper).map dopplerSanitizeChar)⟩
  | .aws =>
    ⟨((base.map Char.toLower).filter isAwsChar).map fun c => if c == '-' then '_' else c⟩
  | .gcp =>
    ⟨(base.filter fun c => isAlnumChar c || c == '_' || c == '-').take 255⟩
  | .azure | .bytehide =>
    ⟨trimEnds (fun c => c == '-')
      (collapseRuns (fun c => c == '-') '-'
        ((collapseRuns (fun c => c == '_' || isJsWhitespace c) '-'
            (base.map Char.toLower)).filter
          fun c => isLowerAZ c || isDigit09 c || c == '-'))⟩
  | .ibm =>
    ⟨trimEnds (fun c => c == '-' || c == '.' || c == '_')
      ((base.map Char.toLower).filter
        fun c => isLowerAZ c || isDigit09 c || c == '_' || c == '.' || c == '-')⟩
  | .hashicorp =>
    ⟨trimEnds (fun c => c == '-' || c == '/')
      ((base.map Char.toLower).filter
        fun c => isLowerAZ c || isDigit09 c || c == '-' || c == '/')⟩
  | .akeyless =>
    ⟨base.filter fun c => isAlnumChar c || c == '-' || c == '/'⟩
  | .cyberark => ⟨(base.filter isAlnumChar).take 28⟩
  | .keeper | .onepassword => ⟨base⟩

/-! ### Character facts for the normalizer proofs -/

theorem char_toNat_inj {c d : Char} (h : c.toNat = d.toNat) : c = d :=
  Char.ext (UInt32.ext h)

theorem toNat_ofNatAux (n : Nat) (h : n.isValidChar) : (Char.ofNatAux n h).toNat = n := by
  simp [Char.ofNatAux, Char.toNat, UInt32.toNat, UInt32.ofNatCore]

theorem toNat_ofNat_valid (n : Nat) (h : n.isValidChar) : (Char.ofNat n).toNat = n := by
  rw [Char.ofNat, dif_pos h, toNat_ofNatAux]

theorem toLower_toNat (c : Char) :
    (Char.toLower c).toNat =
      if 65 ≤ c.toNat ∧ c.toNat ≤ 90 then c.toNat + 32 else c.toNat := by
  simp only [Char.toLower]
  split
  · next h => exact toNat_ofNat_valid _ (Or.inl (by omega))
  · next h => rfl

theorem toUpper_toNat (c : Char) :
    (Char.toUpper c).toNat =
      if 97 ≤ c.toNat ∧ c.toNat ≤ 122 then c.toNat - 32 else c.toNat := by
  simp only [Char.toUpper]
  split
  · next h => exact toNat_ofNat_valid _ (Or.inl (by omega))
  · next h => rfl

theorem toLower_eq_self {c : Char} (h : isUpperAZ c = Bool.false) : Char.toLower c = c := by
  apply char_toNat_inj
  rw [toLower_toNat, if_neg]
  intro hc
  simp [isUpperAZ] at h
  omega

theorem toUpper_eq_self {c : Char} (h : isLowerAZ c = Bool.false) : Char.toUpper c = c := by
  apply char_toNat_inj
  rw [toUpper_toNat, if_neg]
  intro hc
  simp [isLowerAZ] at h
  omega

/-- `c == d` on characters, as toNat equality. -/
theorem char_beq_iff (c d : Char) : (c == d) = Bool.true ↔ c.toNat = d.toNat := by
  constructor
  · intro h
    rw [(beq_iff_eq ..).mp h]
  · intro h
    exact (beq_iff_eq ..).mpr (char_toNat_inj h)

/-! ### List facts for the normalizer proofs -/

theorem map_eq_self_of {l : List Char} {f : Char → Char} (h : ∀ c ∈ l, f c = c) :
    l.map f = l := by
  induction l with
  | nil => rfl
  | cons c cs ih =>
    rw [List.map_cons, h c (by simp), ih fun d hd => h d (by simp [hd])]

theorem dropWhile_eq_self_of_head {p : Char → Bool} {l : List Char}
    (h : ∀ c, l.head? = some c → p c = Bool.false) : l.dropWhile p = l := by
  cases l with
  | nil => rfl
  | cons c cs => rw [List.dropWhile_cons, if_neg (by simp [h c rfl])]

theorem trimEnds_eq_self_of_ends {p : Char → Bool} {l : List Char}
    (h1 : ∀ c, l.head? = some c → p c = Bool.false)
    (h2 : ∀ c, l.getLast? = some c → p c = Bool.false) : trimEnds p l = l := by
  unfold trimEnds
  rw [dropWhile_eq_self_of_head h1]
  rw [dropWhile_eq_self_of_head (by
    intro c hc
    exact h2 c (by rwa [← List.head?_reverse]))]
  exact l.reverse_reverse

theorem trimEnds_eq_self_of_all {p : Char → Bool} {l : List Char}
    (h : ∀ c ∈ l, p c = Bool.false) : trimEnds p l = l := by
  refine trimEnds_eq_self_of_ends (fun c hc => h c ?_) (fun c hc => h c ?_)
  · cases l with
    | nil => simp at hc
    | cons d ds => simp at hc; simp [hc]
  · exact List.mem_of_mem_getLast? hc

theorem collapseRuns_length_le (p : Char → Bool) (r : Char) (l : List Char) :
    (collapseRuns p r l).length ≤ l.length := by
  induction l using collapseRuns.induct p r with
  | case1 => simp [collapseRuns]
  | case2 c cs hc ih =>
    rw [collapseRuns, if_pos hc]
    have := length_dropWhile_le p cs
    simp only [List.length_cons]
    omega
  | case3 c cs hc ih =>
    rw [collapseRuns, if_neg hc]
    simp only [List.length_cons]
    omega

theorem collapseRuns_eq_self {p : Char → Bool} {r : Char} {l : List Char}
    (h : ∀ c ∈ l, p c = Bool.false) : collapseRuns p r l = l := by
  induction l with
  | nil => rw [collapseRuns]
  | cons c cs ih =>
    rw [collapseRuns, if_neg (by simp [h c (by simp)])]
    rw [ih fun d hd => h d (by simp [hd])]

theorem collapseRuns_all {p : Char → Bool} {r : Char} {q : Char → Bool}
    (hq : q r = Bool.true) (l : List Char) (hl : l.all q = Bool.true) :
    (collapseRuns p r l).all q = Bool.true := by
  induction l using collapseRuns.induct p r with
  | case1 => simp [collapseRuns]
  | case2 c cs hc ih =>
    rw [collapseRuns, if_pos hc]
    rw [List.all_cons] at hl
    have hcs : (List.dropWhile p cs).all q = Bool.true := by
      rw [List.all_eq_true]
      intro x hx
      exact (List.all_eq_true.mp (Bool.and_eq_true_iff.mp hl).2) x
        ((List.dropWhile_sublist p).mem hx)
    simp [hq, ih hcs]
  | case3 c cs hc ih =>
    rw [collapseRuns, if_neg hc]
    rw [List.all_cons] at hl ⊢
    have := Bool.and_eq_true_iff.mp hl
    simp [this.1, ih this.2]

theorem collapseRuns_eq_nil_iff {p : Char → Bool} {r : Char} {l : List Char} :
    collapseRuns p r l = [] ↔ l = [] := by
  cases l with
  | nil => simp [collapseRuns]
  | cons c cs =>
    rw [collapseRuns]
    split <;> simp

theorem mem_dropWhile_of_neg {p : Char → Bool} {x : Char} (hx : p x = Bool.false) :
    ∀ {cs : List Char}, x ∈ cs → x ∈ cs.dropWhile p := by
  intro cs hcs
  induction cs with
  | nil => simp at hcs
  | cons c cs' ih =>
    rw [List.dropWhile_cons]
    split
    · next hpc =>
      rcases List.mem_cons.mp hcs with rfl | hm
      · rw [hpc] at hx; cases hx
      · exact ih hm
    · exact hcs

theorem collapseRuns_getLast? {p : Char → Bool} {r : Char} {l : List Char} {c : Char}
    (hl : l.getLast? = some c) (hc : p c = Bool.false) :
    (collapseRuns p r l).getLast? = some c := by
  induction l using collapseRuns.induct p r with
  | case1 => simp at hl
  | case2 c0 cs hc0 ih =>
    rw [collapseRuns, if_pos hc0]
    cases hgl : cs.getLast? with
    | none =>
      have h0 : cs = [] := List.getLast?_eq_none_iff.mp hgl
      subst h0
      rw [List.getLast?_cons] at hl
      simp at hl
      subst hl
      rw [hc0] at hc
      cases hc
    | some d =>
      have hdc : d = c := by
        rw [List.getLast?_cons, hgl] at hl
        simpa using hl
      subst hdc
      have hmem : d ∈ List.dropWhile p cs :=
        mem_dropWhile_of_neg hc (List.mem_of_mem_getLast? hgl)
      have hdne : List.dropWhile p cs ≠ [] := by
        intro h0
        rw [h0] at hmem
        simp at hmem
      have hlastdw : (List.dropWhile p cs).getLast? = some d := by
        obtain ⟨t, ht⟩ := List.dropWhile_suffix (l := cs) p
        rw [← ht, List.getLast?_append] at hgl
        cases hdw : (List.dropWhile p cs).getLast? with
        | none => exact absurd (List.getLast?_eq_none_iff.mp hdw) hdne
        | some e =>
          rw [hdw] at hgl
          simpa using hgl
      have hrec := ih hlastdw
      rw [List.getLast?_cons, hrec]
      rfl
  | case3 c0 cs hc0 ih =>
    rw [collapseRuns, if_neg hc0]
    cases hgl : cs.getLast? with
    | none =>
      have h0 : cs = [] := List.getLast?_eq_none_iff.mp hgl
      subst h0
      rw [collapseRuns]
      rw [List.getLast?_cons] at hl ⊢
      simpa using hl
    | some d =>
      have hdc : d = c := by
        rw [List.getLast?_cons, hgl] at hl
        simpa using hl
      subst hdc
      have hrec := ih hgl
      rw [List.getLast?_cons, hrec]
      rfl

theorem char_eq_iff_toNat {c d : Char} : c = d ↔ c.toNat = d.toNat :=
  ⟨fun h => by rw [h], char_toNat_inj⟩

theorem isUpperAZ_toUpper (c : Char) : isUpperAZ (Char.toUpper c) = isAlphaChar c := by
  rw [Bool.eq_iff_iff]
  simp only [isUpperAZ, isAlphaChar, isLowerAZ, Bool.and_eq_true, Bool.or_eq_true,
    decide_eq_true_eq, toUpper_toNat]
  split <;> omega

theorem isLowerAZ_toLower (c : Char) : isLowerAZ (Char.toLower c) = isAlphaChar c := by
  rw [Bool.eq_iff_iff]
  simp only [isLowerAZ, isAlphaChar, isUpperAZ, Bool.and_eq_true, Bool.or_eq_true,
    decide_eq_true_eq, toLower_toNat]
  split <;> omega

theorem isDigit09_toUpper (c : Char) : isDigit09 (Char.toUpper c) = isDigit09 c := by
  rw [Bool.eq_iff_iff]
  simp only [isDigit09, Bool.and_eq_true, decide_eq_true_eq, toUpper_toNat]
  split <;> omega

theorem isDigit09_toLower (c : Char) : isDigit09 (Char.toLower c) = isDigit09 c := by
  rw [Bool.eq_iff_iff]
  simp only [isDigit09, Bool.and_eq_true, decide_eq_true_eq, toLower_toNat]
  split <;> omega

theorem isAlphaChar_toUpper (c : Char) : isAlphaChar (Char.toUpper c) = isAlphaChar c := by
  rw [Bool.eq_iff_iff]
  simp only [isAlphaChar, isUpperAZ, isLowerAZ, Bool.and_eq_true, Bool.or_eq_true,
    decide_eq_true_eq, toUpper_toNat]
  split <;> omega

theorem isAlnumChar_toUpper (c : Char) : isAlnumChar (Char.toUpper c) = isAlnumChar c := by
  rw [isAlnumChar, isAlnumChar, isAlphaChar_toUpper, isDigit09_toUpper]

theorem isAlnumChar_toLower (c : Char) : isAlnumChar (Char.toLower c) = isAlnumChar c := by
  rw [Bool.eq_iff_iff]
  simp only [isAlnumChar, isAlphaChar, isUpperAZ, isLowerAZ, isDigit09, Bool.and_eq_true,
    Bool.or_eq_true, decide_eq_true_eq, toLower_toNat]
  split <;> omega

theorem toUpper_beq (c d : Char) (hd : isAlphaChar d = Bool.false) :
    (Char.toUpper c == d) = (c == d) := by
  rw [Bool.eq_iff_iff]
  simp only [beq_iff_eq, char_eq_iff_toNat]
  simp only [isAlphaChar, isUpperAZ, isLowerAZ, Bool.or_eq_false_iff, Bool.and_eq_false_iff,
    decide_eq_false_iff_not, not_le] at hd
  rw [toUpper_toNat]
  split <;> omega

theorem toLower_beq (c d : Char) (hd : isAlphaChar d = Bool.false) :
    (Char.toLower c == d) = (c == d) := by
  rw [Bool.eq_iff_iff]
  simp only [beq_iff_eq, char_eq_iff_toNat]
  simp only [isAlphaChar, isUpperAZ, isLowerAZ, Bool.or_eq_false_iff, Bool.and_eq_false_iff,
    decide_eq_false_iff_not, not_le] at hd
  rw [toLower_toNat]
  split <;> omega

theorem not_ws_of_33le (c : Char) (h : 33 ≤ c.toNat) : isJsWhitespace c = Bool.false := by
  simp only [isJsWhitespace, Bool.or_eq_false_iff, Bool.and_eq_false_iff,
    beq_eq_false_iff_ne, ne_eq, decide_eq_false_iff_not, not_le]
  omega

theorem isAlnumChar_ge_48 {c : Char} (h : isAlnumChar c = Bool.true) : 48 ≤ c.toNat := by
  simp only [isAlnumChar, isAlphaChar, isUpperAZ, isLowerAZ, isDigit09, Bool.or_eq_true,
    Bool.and_eq_true, decide_eq_true_eq] at h
  omega

theorem toNat_underscore : ('_' : Char).toNat = 95 := rfl

theorem toNat_hyphen : ('-' : Char).toNat = 45 := rfl

theorem toNat_dot : ('.' : Char).toNat = 46 := rfl

theorem toNat_slash : ('/' : Char).toNat = 47 := rfl

theorem toNat_plus : ('+' : Char).toNat = 43 := rfl

theorem toNat_eqsign : ('=' : Char).toNat = 61 := rfl

theorem toNat_atsign : ('@' : Char).toNat = 64 := rfl

/-- A key already valid for the `env` provider normalizes (upper-casing) to a
still-valid key. -/
theorem normPreserve_env {key : String} (h : validateSecretName .env key = Bool.true) :
    validateSecretName .env (normalizeSecretName .env key) = Bool.true := by
  rw [validateSecretName] at h
  rw [validateSecretName, normalizeSecretName]
  cases hk : key.data with
  | nil => rw [hk] at h; simp [validatorTest] at h
  | cons c cs =>
    rw [hk] at h
    simp only [validatorTest, Bool.and_eq_true] at h
    obtain ⟨h1, h2⟩ := h
    have htrim : trimEnds isJsWhitespace (c :: cs) = c :: cs := by
      apply trimEnds_eq_self_of_all
      intro d hd
      apply not_ws_of_33le
      rcases List.mem_cons.mp hd with rfl | hm
      · revert h1
        simp only [isAlphaChar, isUpperAZ, isLowerAZ, Bool.or_eq_true, Bool.and_eq_true,
          decide_eq_true_eq, beq_iff_eq, char_eq_iff_toNat, toNat_underscore]
        omega
      · have hx := List.all_eq_true.mp h2 d hm
        revert hx
        simp only [isAlnumChar, isAlphaChar, isUpperAZ, isLowerAZ, isDigit09, Bool.or_eq_true,
          Bool.and_eq_true, decide_eq_true_eq, beq_iff_eq, char_eq_iff_toNat, toNat_underscore]
        omega
    show validatorTest .env ((trimEnds isJsWhitespace (c :: cs)).map Char.toUpper) = Bool.true
    rw [htrim, List.map_cons]
    simp only [validatorTest, Bool.and_eq_true]
    constructor
    · rw [Bool.or_eq_true] at h1 ⊢
      rcases h1 with ha | hu
      · exact Or.inl (by rw [isAlphaChar_toUpper]; exact ha)
      · exact Or.inr (by rw [toUpper_beq c '_' (by decide)]; exact hu)
    · rw [List.all_map, List.all_eq_true]
      intro x hx
      have hv := List.all_eq_true.mp h2 x hx
      show (isAlnumChar (Char.toUpper x) || (Char.toUpper x == '_')) = Bool.true
      rw [isAlnumChar_toUpper, toUpper_beq x '_' (by decide)]
      exact hv

/-- A key already valid for the `doppler` provider is left unchanged by
normalization (upper-casing, sanitizing and edge-stripping are all identities
on `[A-Z][A-Z0-9_]*`), hence still valid. -/
theorem normPreserve_doppler {key : String} (h : validateSecretName .doppler key = Bool.true) :
    validateSecretName .doppler (normalizeSecretName .doppler key) = Bool.true := by
  rw [validateSecretName] at h
  rw [validateSecretName, normalizeSecretName]
  cases hk : key.data with
  | nil => rw [hk] at h; simp [validatorTest] at h
  | cons c cs =>
    rw [hk] at h
    simp only [validatorTest, Bool.and_eq_true] at h
    obtain ⟨h1, h2⟩ := h
    have hclass : ∀ d ∈ c :: cs, (isUpperAZ d || isDigit09 d || (d == '_')) = Bool.true := by
      intro d hd
      rcases List.mem_cons.mp hd with rfl | hm
      · simp [h1]
      · exact List.all_eq_true.mp h2 d hm
    have htrim : trimEnds isJsWhitespace (c :: cs) = c :: cs := by
      apply trimEnds_eq_self_of_all
      intro d hd
      apply not_ws_of_33le
      have hc := hclass d hd
      revert hc
      simp only [isUpperAZ, isDigit09, Bool.or_eq_true, Bool.and_eq_true, decide_eq_true_eq,
        beq_iff_eq, char_eq_iff_toNat, toNat_underscore]
      omega
    have hupper : (c :: cs).map Char.toUpper = c :: cs := by
      apply map_eq_self_of
      intro d hd
      apply toUpper_eq_self
      have hc := hclass d hd
      revert hc
      simp only [isUpperAZ, isDigit09, isLowerAZ, Bool.or_eq_true, Bool.and_eq_true,
        decide_eq_true_eq, beq_iff_eq, char_eq_iff_toNat, toNat_underscore,
        Bool.and_eq_false_iff, decide_eq_false_iff_not, not_le]
      omega
    have hsan : (c :: cs).map dopplerSanitizeChar = c :: cs := by
      apply map_eq_self_of
      intro d hd
      rw [dopplerSanitizeChar, if_pos (hclass d hd)]
    show validatorTest .doppler
      (dopplerEdgeStrip (((trimEnds isJsWhitespace (c :: cs)).map Char.toUpper).map
        dopplerSanitizeChar)) = Bool.true
    rw [htrim, hupper, hsan]
    have hstrip : dopplerEdgeStrip (c :: cs) = c :: cs := by
      rw [dopplerEdgeStrip]
      simp only [h1, if_true]
      cases hgl : (c :: cs).getLast? with
      | none => simp at hgl
      | some d =>
        simp only
        rw [if_pos (hclass d (List.mem_of_mem_getLast? hgl))]
    rw [hstrip]
    simp only [validatorTest, Bool.and_eq_true]
    exact ⟨h1, h2⟩

theorem getLast?_cons_of_ne_nil {c : Char} {cs : List Char} (h : cs ≠ []) :
    (c :: cs).getLast? = cs.getLast? := by
  cases hgl : cs.getLast? with
  | none => exact absurd (List.getLast?_eq_none_iff.mp hgl) h
  | some d => rw [List.getLast?_cons, hgl]; rfl

theorem mem_split_last {l : List Char} {d : Char} (hd : d ∈ l) :
    d ∈ l.dropLast ∨ l.getLast? = some d := by
  have hne : l ≠ [] := by rintro rfl; simp at hd
  have hsplit := List.dropLast_append_getLast hne
  rw [← hsplit] at hd
  rcases List.mem_append.mp hd with h1 | h2
  · exact Or.inl h1
  · right
    rw [List.getLast?_eq_getLast l hne]
    simp at h2
    rw [h2]

/-- The azure/bytehide validator, unfolded to end-and-middle conditions. -/
theorem azureValid_iff (l : List Char) :
    validatorTest .azure l = Bool.true ↔
      l ≠ [] ∧ (∀ c, l.head? = some c → isAlnumChar c = Bool.true) ∧
      (∀ c, l.getLast? = some c → isAlnumChar c = Bool.true) ∧
      (∀ c ∈ l, (isAlnumChar c || c == '-') = Bool.true) ∧ l.length ≤ 127 := by
  constructor
  · intro h
    match l with
    | [] => simp [validatorTest] at h
    | [c] =>
      simp only [validatorTest] at h
      refine ⟨by simp, ?_, ?_, ?_, by simp⟩
      · intro d hd
        cases hd
        exact h
      · intro d hd
        simp at hd
        subst hd
        exact h
      · intro d hd
        simp at hd
        subst hd
        simp [h]
    | c :: c2 :: cs =>
      simp only [validatorTest, Bool.and_eq_true] at h
      obtain ⟨⟨⟨⟨hc, _⟩, hlastD⟩, hmid⟩, hlen⟩ := h
      have hne2 : (c2 :: cs : List Char) ≠ [] := by simp
      obtain ⟨e, he⟩ : ∃ e, (c2 :: cs).getLast? = some e := by
        cases hgl : (c2 :: cs).getLast? with
        | none => exact absurd (List.getLast?_eq_none_iff.mp hgl) hne2
        | some d => exact ⟨d, rfl⟩
      have hlast : isAlnumChar e = Bool.true := by
        rw [List.getLastD_eq_getLast?, he] at hlastD
        exact hlastD
      refine ⟨by simp, ?_, ?_, ?_, ?_⟩
      · intro d hd
        cases hd
        exact hc
      · intro d hd
        rw [getLast?_cons_of_ne_nil hne2, he] at hd
        cases hd
        exact hlast
      · intro d hd
        rcases List.mem_cons.mp hd with rfl | hm
        · simp [hc]
        · rcases mem_split_last hm with hdl | hgl
          · exact List.all_eq_true.mp hmid d hdl
          · rw [he] at hgl
            cases hgl
            simp [hlast]
      · have hdl : (c2 :: cs).dropLast.length = cs.length := by
          rw [List.length_dropLast, List.length_cons]
          omega
        simp only [decide_eq_true_eq, hdl] at hlen
        simp only [List.length_cons]
        omega
  · rintro ⟨hne, hhead, hlast, hall, hlen⟩
    match l with
    | [] => exact absurd rfl hne
    | [c] =>
      simp only [validatorTest]
      exact hhead c rfl
    | c :: c2 :: cs =>
      have hne2 : (c2 :: cs : List Char) ≠ [] := by simp
      obtain ⟨e, he⟩ : ∃ e, (c2 :: cs).getLast? = some e := by
        cases hgl : (c2 :: cs).getLast? with
        | none => exact absurd (List.getLast?_eq_none_iff.mp hgl) hne2
        | some d => exact ⟨d, rfl⟩
      simp only [validatorTest, Bool.and_eq_true]
      refine ⟨⟨⟨⟨hhead c rfl, by simp⟩, ?_⟩, ?_⟩, ?_⟩
      · rw [List.getLastD_eq_getLast?, he]
        exact hlast e (by rw [getLast?_cons_of_ne_nil hne2, he])
      · rw [List.all_eq_true]
        intro d hd
        exact hall d (List.mem_cons_of_mem c ((List.dropLast_sublist (c2 :: cs)).mem hd))
      · have hdl : (c2 :: cs).dropLast.length = cs.length := by
          rw [List.length_dropLast, List.length_cons]
          omega
        simp only [decide_eq_true_eq, hdl]
        simp only [List.length_cons] at hlen
        omega

theorem collapseRuns_head? {p : Char → Bool} {r : Char} {l : List Char}
    (h : ∀ c, l.head? = some c → p c = Bool.false) :
    (collapseRuns p r l).head? = l.head? := by
  cases l with
  | nil => rw [collapseRuns]
  | cons c cs =>
    rw [collapseRuns, if_neg (by simp [h c rfl])]
    rfl

theorem alnum_ne_hyphen {c : Char} (h : isAlnumChar c = Bool.true) : (c == '-') = Bool.false := by
  revert h
  simp only [isAlnumChar, isAlphaChar, isUpperAZ, isLowerAZ, isDigit09, Bool.or_eq_true,
    Bool.and_eq_true, decide_eq_true_eq, beq_eq_false_iff_ne, ne_eq, char_eq_iff_toNat,
    toNat_hyphen]
  omega

theorem azClass_toLower {x : Char} (hx : (isAlnumChar x || x == '-') = Bool.true) :
    (isLowerAZ (Char.toLower x) || isDigit09 (Char.toLower x) ||
      (Char.toLower x == '-')) = Bool.true := by
  rw [isLowerAZ_toLower, isDigit09_toLower, toLower_beq x '-' (by decide)]
  revert hx
  simp only [isAlnumChar, Bool.or_eq_true]
  tauto

theorem azClass_weaken {d : Char} (h : (isLowerAZ d || isDigit09 d || (d == '-')) = Bool.true) :
    (isAlnumChar d || d == '-') = Bool.true := by
  revert h
  simp only [isAlnumChar, isAlphaChar, Bool.or_eq_true]
  tauto

theorem azClass_not_underscore_ws {c : Char}
    (h : (isLowerAZ c || isDigit09 c || (c == '-')) = Bool.true) :
    ((c == '_') || isJsWhitespace c) = Bool.false := by
  revert h
  simp only [isLowerAZ, isDigit09, isJsWhitespace, Bool.or_eq_true, Bool.and_eq_true,
    decide_eq_true_eq, beq_iff_eq, char_eq_iff_toNat, toNat_hyphen, toNat_underscore,
    Bool.or_eq_false_iff, Bool.and_eq_false_iff, beq_eq_false_iff_ne, ne_eq,
    decide_eq_false_iff_not, not_le]
  omega

theorem azClass_ge33 {c : Char} (h : (isAlnumChar c || c == '-') = Bool.true) :
    33 ≤ c.toNat := by
  revert h
  simp only [isAlnumChar, isAlphaChar, isUpperAZ, isLowerAZ, isDigit09, Bool.or_eq_true,
    Bool.and_eq_true, decide_eq_true_eq, beq_iff_eq, char_eq_iff_toNat, toNat_hyphen]
  omega

/-- The azure/bytehide normalization pipeline preserves validity. -/
theorem normPreserve_azure_core {l : List Char} (h : validatorTest .azure l = Bool.true) :
    validatorTest .azure
      (trimEnds (fun c => c == '-')
        (collapseRuns (fun c => c == '-') '-'
          ((collapseRuns (fun c => c == '_' || isJsWhitespace c) '-'
              ((trimEnds isJsWhitespace l).map Char.toLower)).filter
            fun c => isLowerAZ c || isDigit09 c || c == '-'))) = Bool.true := by
  obtain ⟨hne, hhead, hlast, hall, hlen⟩ := (azureValid_iff l).mp h
  have htrim : trimEnds isJsWhitespace l = l :=
    trimEnds_eq_self_of_all fun d hd => not_ws_of_33le d (azClass_ge33 (hall d hd))
  rw [htrim]
  have l1all : ∀ d ∈ l.map Char.toLower,
      (isLowerAZ d || isDigit09 d || (d == '-')) = Bool.true := by
    intro d hd
    obtain ⟨x, hx, rfl⟩ := List.mem_map.mp hd
    exact azClass_toLower (hall x hx)
  have hcoll1 : collapseRuns (fun c => c == '_' || isJsWhitespace c) '-'
      (l.map Char.toLower) = l.map Char.toLower :=
    collapseRuns_eq_self fun d hd => azClass_not_underscore_ws (l1all d hd)
  rw [hcoll1]
  have hfilter : (l.map Char.toLower).filter
      (fun c => isLowerAZ c || isDigit09 c || c == '-') = l.map Char.toLower :=
    List.filter_eq_self.mpr l1all
  rw [hfilter]
  -- ends of the lower-cased list
  obtain ⟨c0, hc0⟩ : ∃ c0, l.head? = some c0 := by
    cases l with
    | nil => exact absurd rfl hne
    | cons c cs => exact ⟨c, rfl⟩
  obtain ⟨e0, he0⟩ : ∃ e0, l.getLast? = some e0 := by
    cases hgl : l.getLast? with
    | none => exact absurd (List.getLast?_eq_none_iff.mp hgl) hne
    | some d => exact ⟨d, rfl⟩
  have l1head : (l.map Char.toLower).head? = some (Char.toLower c0) := by
    rw [List.head?_map, hc0]
    rfl
  have l1last : (l.map Char.toLower).getLast? = some (Char.toLower e0) := by
    rw [List.getLast?_map, he0]
    rfl
  have hc0a : isAlnumChar (Char.toLower c0) = Bool.true := by
    rw [isAlnumChar_toLower]
    exact hhead c0 hc0
  have he0a : isAlnumChar (Char.toLower e0) = Bool.true := by
    rw [isAlnumChar_toLower]
    exact hlast e0 he0
  -- collapse the hyphen runs
  have hcollhead : (collapseRuns (fun c => c == '-') '-' (l.map Char.toLower)).head? =
      some (Char.toLower c0) := by
    rw [collapseRuns_head?, l1head]
    intro d hd
    rw [l1head] at hd
    cases hd
    exact alnum_ne_hyphen hc0a
  have hcolllast : (collapseRuns (fun c => c == '-') '-' (l.map Char.toLower)).getLast? =
      some (Char.toLower e0) :=
    collapseRuns_getLast? l1last (alnum_ne_hyphen he0a)
  have hcollall : ∀ d ∈ collapseRuns (fun c => c == '-') '-' (l.map Char.toLower),
      (isAlnumChar d || d == '-') = Bool.true := by
    intro d hd
    have := collapseRuns_all (p := fun c => c == '-') (r := '-')
      (q := fun d => isAlnumChar d || d == '-') (by decide)
      (l.map Char.toLower)
      (List.all_eq_true.mpr fun x hx => azClass_weaken (l1all x hx))
    exact List.all_eq_true.mp this d hd
  have htrim2 : trimEnds (fun c => c == '-')
      (collapseRuns (fun c => c == '-') '-' (l.map Char.toLower)) =
      collapseRuns (fun c => c == '-') '-' (l.map Char.toLower) := by
    apply trimEnds_eq_self_of_ends
    · intro c hc
      rw [hcollhead] at hc
      cases hc
      exact alnum_ne_hyphen hc0a
    · intro c hc
      rw [hcolllast] at hc
      cases hc
      exact alnum_ne_hyphen he0a
  rw [htrim2]
  apply (azureValid_iff _).mpr
  refine ⟨?_, ?_, ?_, hcollall, ?_⟩
  · rw [ne_eq, collapseRuns_eq_nil_iff]
    simp only [List.map_eq_nil_iff]
    exact hne
  · intro c hc
    rw [hcollhead] at hc
    cases hc
    exact hc0a
  · intro c hc
    rw [hcolllast] at hc
    cases hc
    exact he0a
  · calc (collapseRuns (fun c => c == '-') '-' (l.map Char.toLower)).length
        ≤ (l.map Char.toLower).length := collapseRuns_length_le _ _ _
      _ = l.length := List.length_map _ _
      _ ≤ 127 := hlen

/-- A key already valid for gcp is untouched by normalization. -/
theorem normPreserve_gcp {key : String} (h : validateSecretName .gcp key = Bool.true) :
    validateSecretName .gcp (normalizeSecretName .gcp key) = Bool.true := by
  rw [validateSecretName] at h
  rw [validateSecretName, normalizeSecretName]
  simp only [validatorTest, Bool.and_eq_true, decide_eq_true_eq] at h
  obtain ⟨⟨hne, hlen⟩, hall⟩ := h
  have hall' := List.all_eq_true.mp hall
  have htrim : trimEnds isJsWhitespace key.data = key.data := by
    apply trimEnds_eq_self_of_all
    intro d hd
    apply not_ws_of_33le
    have hc := hall' d hd
    revert hc
    simp only [isAlnumChar, isAlphaChar, isUpperAZ, isLowerAZ, isDigit09, Bool.or_eq_true,
      Bool.and_eq_true, decide_eq_true_eq, beq_iff_eq, char_eq_iff_toNat, toNat_underscore,
      toNat_hyphen]
    omega
  show validatorTest .gcp
    (((trimEnds isJsWhitespace key.data).filter fun c => isAlnumChar c || c == '_' ||
      c == '-').take 255) = Bool.true
  rw [htrim, List.filter_eq_self.mpr hall', List.take_of_length_le hlen]
  simp only [validatorTest, Bool.and_eq_true, decide_eq_true_eq]
  exact ⟨⟨hne, hlen⟩, hall⟩

/-- A key already valid for cyberark is untouched by normalization. -/
theorem normPreserve_cyberark {key : String} (h : validateSecretName .cyberark key = Bool.true) :
    validateSecretName .cyberark (normalizeSecretName .cyberark key) = Bool.true := by
  rw [validateSecretName] at h
  rw [validateSecretName, normalizeSecretName]
  simp only [validatorTest, Bool.and_eq_true, decide_eq_true_eq] at h
  obtain ⟨⟨hne, hlen⟩, hall⟩ := h
  have hall' := List.all_eq_true.mp hall
  have htrim : trimEnds isJsWhitespace key.data = key.data := by
    apply trimEnds_eq_self_of_all
    intro d hd
    exact not_ws_of_33le d (isAlnumChar_ge_48 (hall' d hd) |> fun h => by omega)
  show validatorTest .cyberark (((trimEnds isJsWhitespace key.data).filter isAlnumChar).take 28) =
    Bool.true
  rw [htrim, List.filter_eq_self.mpr hall', List.take_of_length_le hlen]
  simp only [validatorTest, Bool.and_eq_true, decide_eq_true_eq]
  exact ⟨⟨hne, hlen⟩, hall⟩

theorem isAwsChar_ge33 {c : Char} (h : isAwsChar c = Bool.true) : 33 ≤ c.toNat := by
  revert h
  simp only [isAwsChar, isAlnumChar, isAlphaChar, isUpperAZ, isLowerAZ, isDigit09,
    Bool.or_eq_true, Bool.and_eq_true, decide_eq_true_eq, beq_iff_eq, char_eq_iff_toNat,
    toNat_underscore, toNat_plus, toNat_eqsign, toNat_dot, toNat_atsign, toNat_hyphen]
  omega

theorem awsClass_toLower {x : Char} (hx : isAwsChar x = Bool.true) :
    isAwsChar (Char.toLower x) = Bool.true := by
  rw [isAwsChar] at hx ⊢
  rw [isAlnumChar_toLower, toLower_beq x '_' (by decide), toLower_beq x '+' (by decide),
    toLower_beq x '=' (by decide), toLower_beq x '.' (by decide),
    toLower_beq x '@' (by decide), toLower_beq x '-' (by decide)]
  exact hx

theorem isAwsChar_dashmap {c : Char} (h : isAwsChar c = Bool.true) :
    isAwsChar (if c == '-' then '_' else c) = Bool.true := by
  split
  · decide
  · exact h

/-- A key already valid for aws normalizes (lower-casing and `-`→`_`) to a
still-valid key of the same length. -/
theorem normPreserve_aws {key : String} (h : validateSecretName .aws key = Bool.true) :
    validateSecretName .aws (normalizeSecretName .aws key) = Bool.true := by
  rw [validateSecretName] at h
  rw [validateSecretName, normalizeSecretName]
  simp only [validatorTest, Bool.and_eq_true, decide_eq_true_eq] at h
  obtain ⟨⟨hne, hlen⟩, hall⟩ := h
  have hall' : ∀ d ∈ key.data, isAwsChar d = Bool.true := fun d hd =>
    List.all_eq_true.mp hall d hd
  have htrim : trimEnds isJsWhitespace key.data = key.data :=
    trimEnds_eq_self_of_all fun d hd => not_ws_of_33le d (isAwsChar_ge33 (hall' d hd))
  have hfilter : (key.data.map Char.toLower).filter isAwsChar = key.data.map Char.toLower := by
    apply List.filter_eq_self.mpr
    intro d hd
    obtain ⟨x, hx, rfl⟩ := List.mem_map.mp hd
    exact awsClass_toLower (hall' x hx)
  show validatorTest .aws
    ((((trimEnds isJsWhitespace key.data).map Char.toLower).filter isAwsChar).map
      fun c => if c == '-' then '_' else c) = Bool.true
  rw [htrim, hfilter]
  simp only [validatorTest, Bool.and_eq_true, decide_eq_true_eq]
  refine ⟨⟨?_, ?_⟩, ?_⟩
  · simp only [Bool.not_eq_true', List.isEmpty_eq_false, ne_eq, List.map_eq_nil_iff] at hne ⊢
    exact hne
  · rw [List.length_map, List.length_map]
    exact hlen
  · rw [List.all_map, List.all_map, List.all_eq_true]
    intro x hx
    show (fun c => isAlnumChar c || c == '_' || c == '+' || c == '=' || c == '.' ||
      c == '@' || c == '-') ((if Char.toLower x == '-' then '_' else Char.toLower x)) = Bool.true
    exact isAwsChar_dashmap (awsClass_toLower (hall' x hx))

/-- The ibm validator, unfolded to end-and-middle conditions. -/
theorem ibmValid_iff (l : List Char) :
    validatorTest .ibm l = Bool.true ↔
      2 ≤ l.length ∧ (∀ c, l.head? = some c → isAlnumChar c = Bool.true) ∧
      (∀ c, l.getLast? = some c → isAlnumChar c = Bool.true) ∧
      (∀ c ∈ l, (isAlnumChar c || c == '_' || c == '.' || c == '-') = Bool.true) ∧
      l.length ≤ 256 := by
  constructor
  · intro h
    match l with
    | [] => simp [validatorTest] at h
    | [c] => simp [validatorTest] at h
    | c :: c2 :: cs =>
      simp only [validatorTest, Bool.and_eq_true, decide_eq_true_eq] at h
      obtain ⟨⟨⟨⟨hc, _⟩, hlastD⟩, hmid⟩, hlen⟩ := h
      have hne2 : (c2 :: cs : List Char) ≠ [] := by simp
      obtain ⟨e, he⟩ : ∃ e, (c2 :: cs).getLast? = some e := by
        cases hgl : (c2 :: cs).getLast? with
        | none => exact absurd (List.getLast?_eq_none_iff.mp hgl) hne2
        | some d => exact ⟨d, rfl⟩
      have hlast : isAlnumChar e = Bool.true := by
        rw [List.getLastD_eq_getLast?, he] at hlastD
        exact hlastD
      refine ⟨by simp [List.length_cons], ?_, ?_, ?_, ?_⟩
      · intro d hd
        cases hd
        exact hc
      · intro d hd
        rw [getLast?_cons_of_ne_nil hne2, he] at hd
        cases hd
        exact hlast
      · intro d hd
        rcases List.mem_cons.mp hd with rfl | hm
        · simp [hc]
        · rcases mem_split_last hm with hdl | hgl
          · exact List.all_eq_true.mp hmid d hdl
          · rw [he] at hgl
            cases hgl
            simp [hlast]
      · simp only [List.length_cons] at hlen ⊢
        omega
  · rintro ⟨hlen2, hhead, hlast, hall, hlen⟩
    match l with
    | [] => simp at hlen2
    | [c] => simp at hlen2
    | c :: c2 :: cs =>
      have hne2 : (c2 :: cs : List Char) ≠ [] := by simp
      obtain ⟨e, he⟩ : ∃ e, (c2 :: cs).getLast? = some e := by
        cases hgl : (c2 :: cs).getLast? with
        | none => exact absurd (List.getLast?_eq_none_iff.mp hgl) hne2
        | some d => exact ⟨d, rfl⟩
      simp only [validatorTest, Bool.and_eq_true, decide_eq_true_eq]
      refine ⟨⟨⟨⟨hhead c rfl, by simp⟩, ?_⟩, ?_⟩, ?_⟩
      · rw [List.getLastD_eq_getLast?, he]
        exact hlast e (by rw [getLast?_cons_of_ne_nil hne2, he])
      · rw [List.all_eq_true]
        intro d hd
        exact hall d (List.mem_cons_of_mem c ((List.dropLast_sublist (c2 :: cs)).mem hd))
      · simp only [List.length_cons] at hlen ⊢
        omega

/-- The hashicorp validator, unfolded to end-and-middle conditions. -/
theorem hashicorpValid_iff (l : List Char) :
    validatorTest .hashicorp l = Bool.true ↔
      2 ≤ l.length ∧ (∀ c, l.head? = some c → isAlnumChar c = Bool.true) ∧
      (∀ c, l.getLast? = some c → isAlnumChar c = Bool.true) ∧
      (∀ c ∈ l, (isAlnumChar c || c == '-' || c == '/') = Bool.true) := by
  constructor
  · intro h
    match l with
    | [] => simp [validatorTest] at h
    | [c] => simp [validatorTest] at h
    | c :: c2 :: cs =>
      simp only [validatorTest, Bool.and_eq_true] at h
      obtain ⟨⟨⟨hc, _⟩, hlastD⟩, hmid⟩ := h
      have hne2 : (c2 :: cs : List Char) ≠ [] := by simp
      obtain ⟨e, he⟩ : ∃ e, (c2 :: cs).getLast? = some e := by
        cases hgl : (c2 :: cs).getLast? with
        | none => exact absurd (List.getLast?_eq_none_iff.mp hgl) hne2
        | some d => exact ⟨d, rfl⟩
      have hlast : isAlnumChar e = Bool.true := by
        rw [List.getLastD_eq_getLast?, he] at hlastD
        exact hlastD
      refine ⟨by simp [List.length_cons], ?_, ?_, ?_⟩
      · intro d hd
        cases hd
        exact hc
      · intro d hd
        rw [getLast?_cons_of_ne_nil hne2, he] at hd
        cases hd
        exact hlast
      · intro d hd
        rcases List.mem_cons.mp hd with rfl | hm
        · simp [hc]
        · rcases mem_split_last hm with hdl | hgl
          · exact List.all_eq_true.mp hmid d hdl
          · rw [he] at hgl
            cases hgl
            simp [hlast]
  · rintro ⟨hlen2, hhead, hlast, hall⟩
    match l with
    | [] => simp at hlen2
    | [c] => simp at hlen2
    | c :: c2 :: cs =>
      have hne2 : (c2 :: cs : List Char) ≠ [] := by simp
      obtain ⟨e, he⟩ : ∃ e, (c2 :: cs).getLast? = some e := by
        cases hgl : (c2 :: cs).getLast? with
        | none => exact absurd (List.getLast?_eq_none_iff.mp hgl) hne2
        | some d => exact ⟨d, rfl⟩
      simp only [validatorTest, Bool.and_eq_true]
      refine ⟨⟨⟨hhead c rfl, by simp⟩, ?_⟩, ?_⟩
      · rw [List.getLastD_eq_getLast?, he]
        exact hlast e (by rw [getLast?_cons_of_ne_nil hne2, he])
      · rw [List.all_eq_true]
        intro d hd
        exact hall d (List.mem_cons_of_mem c ((List.dropLast_sublist (c2 :: cs)).mem hd))

theorem ibmClass_ge33 {c : Char}
    (h : (isAlnumChar c || c == '_' || c == '.' || c == '-') = Bool.true) : 33 ≤ c.toNat := by
  revert h
  simp only [isAlnumChar, isAlphaChar, isUpperAZ, isLowerAZ, isDigit09, Bool.or_eq_true,
    Bool.and_eq_true, decide_eq_true_eq, beq_iff_eq, char_eq_iff_toNat, toNat_underscore,
    toNat_dot, toNat_hyphen]
  omega

theorem ibmClass_toLower_filt {x : Char}
    (hx : (isAlnumChar x || x == '_' || x == '.' || x == '-') = Bool.true) :
    (isLowerAZ (Char.toLower x) || isDigit09 (Char.toLower x) || (Char.toLower x == '_') ||
      (Char.toLower x == '.') || (Char.toLower x == '-')) = Bool.true := by
  rw [isLowerAZ_toLower, isDigit09_toLower, toLower_beq x '_' (by decide),
    toLower_beq x '.' (by decide), toLower_beq x '-' (by decide)]
  revert hx
  simp only [isAlnumChar, Bool.or_eq_true]
  tauto

theorem ibmClass_toLower {x : Char}
    (hx : (isAlnumChar x || x == '_' || x == '.' || x == '-') = Bool.true) :
    (isAlnumChar (Char.toLower x) || (Char.toLower x == '_') || (Char.toLower x == '.') ||
      (Char.toLower x == '-')) = Bool.true := by
  rw [isAlnumChar_toLower, toLower_beq x '_' (by decide), toLower_beq x '.' (by decide),
    toLower_beq x '-' (by decide)]
  exact hx

theorem alnum_not_ibmEdge {c : Char} (h : isAlnumChar c = Bool.true) :
    ((c == '-') || (c == '.') || (c == '_')) = Bool.false := by
  revert h
  simp only [isAlnumChar, isAlphaChar, isUpperAZ, isLowerAZ, isDigit09, Bool.or_eq_true,
    Bool.and_eq_true, decide_eq_true_eq, Bool.or_eq_false_iff, beq_eq_false_iff_ne, ne_eq,
    char_eq_iff_toNat, toNat_underscore, toNat_dot, toNat_hyphen]
  omega

/-- A key already valid for ibm normalizes (lower-casing) to a still-valid key. -/
theorem normPreserve_ibm {key : String} (h : validateSecretName .ibm key = Bool.true) :
    validateSecretName .ibm (normalizeSecretName .ibm key) = Bool.true := by
  rw [validateSecretName] at h
  rw [validateSecretName, normalizeSecretName]
  obtain ⟨hlen2, hhead, hlast, hall, hlen⟩ := (ibmValid_iff key.data).mp h
  have htrim : trimEnds isJsWhitespace key.data = key.data :=
    trimEnds_eq_self_of_all fun d hd => not_ws_of_33le d (ibmClass_ge33 (hall d hd))
  have hfilter : (key.data.map Char.toLower).filter
      (fun c => isLowerAZ c || isDigit09 c || c == '_' || c == '.' || c == '-') =
      key.data.map Char.toLower := by
    apply List.filter_eq_self.mpr
    intro d hd
    obtain ⟨x, hx, rfl⟩ := List.mem_map.mp hd
    exact ibmClass_toLower_filt (hall x hx)
  obtain ⟨c0, hc0⟩ : ∃ c0, key.data.head? = some c0 := by
    cases hk : key.data with
    | nil => rw [hk] at hlen2; simp at hlen2
    | cons c cs => exact ⟨c, rfl⟩
  obtain ⟨e0, he0⟩ : ∃ e0, key.data.getLast? = some e0 := by
    cases hgl : key.data.getLast? with
    | none =>
      rw [List.getLast?_eq_none_iff.mp hgl] at hlen2
      simp at hlen2
    | some d => exact ⟨d, rfl⟩
  have l1head : (key.data.map Char.toLower).head? = some (Char.toLower c0) := by
    rw [List.head?_map, hc0]
    rfl
  have l1last : (key.data.map Char.toLower).getLast? = some (Char.toLower e0) := by
    rw [List.getLast?_map, he0]
    rfl
  have hc0a : isAlnumChar (Char.toLower c0) = Bool.true := by
    rw [isAlnumChar_toLower]
    exact hhead c0 hc0
  have he0a : isAlnumChar (Char.toLower e0) = Bool.true := by
    rw [isAlnumChar_toLower]
    exact hlast e0 he0
  have htrim2 : trimEnds (fun c => c == '-' || c == '.' || c == '_')
      (key.data.map Char.toLower) = key.data.map Char.toLower := by
    apply trimEnds_eq_self_of_ends
    · intro c hc
      rw [l1head] at hc
      cases hc
      exact alnum_not_ibmEdge hc0a
    · intro c hc
      rw [l1last] at hc
      cases hc
      exact alnum_not_ibmEdge he0a
  show validatorTest .ibm
    (trimEnds (fun c => c == '-' || c == '.' || c == '_')
      (((trimEnds isJsWhitespace key.data).map Char.toLower).filter
        fun c => isLowerAZ c || isDigit09 c || c == '_' || c == '.' || c == '-')) = Bool.true
  rw [htrim, hfilter, htrim2]
  apply (ibmValid_iff _).mpr
  refine ⟨?_, ?_, ?_, ?_, ?_⟩
  · rw [List.length_map]
    exact hlen2
  · intro c hc
    rw [l1head] at hc
    cases hc
    exact hc0a
  · intro c hc
    rw [l1last] at hc
    cases hc
    exact he0a
  · intro d hd
    obtain ⟨x, hx, rfl⟩ := List.mem_map.mp hd
    exact ibmClass_toLower (hall x hx)
  · rw [List.length_map]
    exact hlen

theorem hcClass_ge33 {c : Char}
    (h : (isAlnumChar c || c == '-' || c == '/') = Bool.true) : 33 ≤ c.toNat := by
  revert h
  simp only [isAlnumChar, isAlphaChar, isUpperAZ, isLowerAZ, isDigit09, Bool.or_eq_true,
    Bool.and_eq_true, decide_eq_true_eq, beq_iff_eq, char_eq_iff_toNat, toNat_slash,
    toNat_hyphen]
  omega

theorem hcClass_toLower_filt {x : Char}
    (hx : (isAlnumChar x || x == '-' || x == '/') = Bool.true) :
    (isLowerAZ (Char.toLower x) || isDigit09 (Char.toLower x) || (Char.toLower x == '-') ||
      (Char.toLower x == '/')) = Bool.true := by
  rw [isLowerAZ_toLower, isDigit09_toLower, toLower_beq x '-' (by decide),
    toLower_beq x '/' (by decide)]
  revert hx
  simp only [isAlnumChar, Bool.or_eq_true]
  tauto

theorem hcClass_toLower {x : Char}
    (hx : (isAlnumChar x || x == '-' || x == '/') = Bool.true) :
    (isAlnumChar (Char.toLower x) || (Char.toLower x == '-') ||
      (Char.toLower x == '/')) = Bool.true := by
  rw [isAlnumChar_toLower, toLower_beq x '-' (by decide), toLower_beq x '/' (by decide)]
  exact hx

theorem alnum_not_hcEdge {c : Char} (h : isAlnumChar c = Bool.true) :
    ((c == '-') || (c == '/')) = Bool.false := by
  revert h
  simp only [isAlnumChar, isAlphaChar, isUpperAZ, isLowerAZ, isDigit09, Bool.or_eq_true,
    Bool.and_eq_true, decide_eq_true_eq, Bool.or_eq_false_iff, beq_eq_false_iff_ne, ne_eq,
    char_eq_iff_toNat, toNat_slash, toNat_hyphen]
  omega

/-- A key already valid for hashicorp normalizes (lower-casing) to a
still-valid key. -/
theorem normPreserve_hashicorp {key : String}
    (h : validateSecretName .hashicorp key = Bool.true) :
    validateSecretName .hashicorp (normalizeSecretName .hashicorp key) = Bool.true := by
  rw [validateSecretName] at h
  rw [validateSecretName, normalizeSecretName]
  obtain ⟨hlen2, hhead, hlast, hall⟩ := (hashicorpValid_iff key.data).mp h
  have htrim : trimEnds isJsWhitespace key.data = key.data :=
    trimEnds_eq_self_of_all fun d hd => not_ws_of_33le d (hcClass_ge33 (hall d hd))
  have hfilter : (key.data.map Char.toLower).filter
      (fun c => isLowerAZ c || isDigit09 c || c == '-' || c == '/') =
      key.data.map Char.toLower := by
    apply List.filter_eq_self.mpr
    intro d hd
    obtain ⟨x, hx, rfl⟩ := List.mem_map.mp hd
    exact hcClass_toLower_filt (hall x hx)
  obtain ⟨c0, hc0⟩ : ∃ c0, key.data.head? = some c0 := by
    cases hk : key.data with
    | nil => rw [hk] at hlen2; simp at hlen2
    | cons c cs => exact ⟨c, rfl⟩
  obtain ⟨e0, he0⟩ : ∃ e0, key.data.getLast? = some e0 := by
    cases hgl : key.data.getLast? with
    | none =>
      rw [List.getLast?_eq_none_iff.mp hgl] at hlen2
      simp at hlen2
    | some d => exact ⟨d, rfl⟩
  have l1head : (key.data.map Char.toLower).head? = some (Char.toLower c0) := by
    rw [List.head?_map, hc0]
    rfl
  have l1last : (key.data.map Char.toLower).getLast? = some (Char.toLower e0) := by
    rw [List.getLast?_map, he0]
    rfl
  have hc0a : isAlnumChar (Char.toLower c0) = Bool.true := by
    rw [isAlnumChar_toLower]
    exact hhead c0 hc0
  have he0a : isAlnumChar (Char.toLower e0) = Bool.true := by
    rw [isAlnumChar_toLower]
    exact hlast e0 he0
  have htrim2 : trimEnds (fun c => c == '-' || c == '/')
      (key.data.map Char.toLower) = key.data.map Char.toLower := by
    apply trimEnds_eq_self_of_ends
    · intro c hc
      rw [l1head] at hc
      cases hc
      exact alnum_not_hcEdge hc0a
    · intro c hc
      rw [l1last] at hc
      cases hc
      exact alnum_not_hcEdge he0a
  show validatorTest .hashicorp
    (trimEnds (fun c => c == '-' || c == '/')
      (((trimEnds isJsWhitespace key.data).map Char.toLower).filter
        fun c => isLowerAZ c || isDigit09 c || c == '-' || c == '/')) = Bool.true
  rw [htrim, hfilter, htrim2]
  apply (hashicorpValid_iff _).mpr
  refine ⟨?_, ?_, ?_, ?_⟩
  · rw [List.length_map]
    exact hlen2
  · intro c hc
    rw [l1head] at hc
    cases hc
    exact hc0a
  · intro c hc
    rw [l1last] at hc
    cases hc
    exact he0a
  · intro d hd
    obtain ⟨x, hx, rfl⟩ := List.mem_map.mp hd
    exact hcClass_toLower (hall x hx)

/-- A key already valid for azure normalizes to a still-valid key. -/
theorem normPreserve_azure {key : String} (h : validateSecretName .azure key = Bool.true) :
    validateSecretName .azure (normalizeSecretName .azure key) = Bool.true := by
  rw [validateSecretName] at h
  rw [validateSecretName, normalizeSecretName]
  exact normPreserve_azure_core h

/-- A key already valid for bytehide (same rule as azure) normalizes to a
still-valid key. -/
theorem normPreserve_bytehide {key : String} (h : validateSecretName .bytehide key = Bool.true) :
    validateSecretName .bytehide (normalizeSecretName .bytehide key) = Bool.true := by
  rw [validateSecretName] at h
  rw [validateSecretName, normalizeSecretName]
  show validatorTest .bytehide _ = Bool.true
  have hz : validatorTest .azure key.data = Bool.true := h
  have := normPreserve_azure_core hz
  exact this

/-- C4 counterexample: normalization is not total into validity.  For the
`env` provider (format `^[A-Za-z_][A-Za-z0-9_]*$`) the key `"my.key"`
normalizes to `"MY.KEY"`, which still fails `validateSecretName`. -/
theorem normalize_env_not_valid :
    validateSecretName .env (normalizeSecretName .env "my.key") = Bool.false := by decide

/-- C4 (amended): `normalizeSecretName` is a total function, but its output
need not satisfy `validateSecretName` (see the counterexample).  What holds is
preservation: for every provider with a structured name rule (azure, bytehide,
aws, gcp, ibm, doppler, cyberark, hashicorp, env), a key that already
satisfies the provider's validator is normalized to a key that still
satisfies it. -/
theorem normalize_preserves_validity :
    (∀ key, validateSecretName .env key = Bool.true →
      validateSecretName .env (normalizeSecretName .env key) = Bool.true) ∧
    (∀ key, validateSecretName .doppler key = Bool.true →
      validateSecretName .doppler (normalizeSecretName .doppler key) = Bool.true) ∧
    (∀ key, validateSecretName .aws key = Bool.true →
      validateSecretName .aws (normalizeSecretName .aws key) = Bool.true) ∧
    (∀ key, validateSecretName .gcp key = Bool.true →
      validateSecretName .gcp (normalizeSecretName .gcp key) = Bool.true) ∧
    (∀ key, validateSecretName .azure key = Bool.true →
      validateSecretName .azure (normalizeSecretName .azure key) = Bool.true) ∧
    (∀ key, validateSecretName .bytehide key = Bool.true →
      validateSecretName .bytehide (normalizeSecretName .bytehide key) = Bool.true) ∧
    (∀ key, validateSecretName .ibm key = Bool.true →
      validateSecretName .ibm (normalizeSecretName .ibm key) = Bool.true) ∧
    (∀ key, validateSecretName .hashicorp key = Bool.true →
      validateSecretName .hashicorp (normalizeSecretName .hashicorp key) = Bool.true) ∧
    (∀ key, validateSecretName .cyberark key = Bool.true →
      validateSecretName .cyberark (normalizeSecretName .cyberark key) = Bool.true) :=
  ⟨fun _ => normPreserve_env, fun _ => normPreserve_doppler, fun _ => normPreserve_aws,
    fun _ => normPreserve_gcp, fun _ => normPreserve_azure, fun _ => normPreserve_bytehide,
    fun _ => normPreserve_ibm, fun _ => normPreserve_hashicorp, fun _ => normPreserve_cyberark⟩

/-! ## The resolution cache (src/secretsManager.ts) and the access proxy

Process-global mutable state (the `SecretsManager` singleton, the
`preloadExecuted` flag) is modelled by explicit state passing.  A JavaScript
`Map<string,string>` is an association list with replace-or-append `set`. -/

/-- `Map.get`. -/
def mapGet : List (String × String) → String → Option String
  | [], _ => none
  | (k', v) :: rest, k => if k' = k then some v else mapGet rest k

/-- `Map.set`: replaces in place, else appends (JavaScript `Map` keeps the
first insertion's position). -/
def mapSet : List (String × String) → String → String → List (String × String)
  | [], k, v => [(k, v)]
  | (k', v') :: rest, k, v =>
    if k' = k then (k, v) :: rest else (k', v') :: mapSet rest k v

theorem mapGet_mapSet (m : List (String × String)) (k v k' : String) :
    mapGet (mapSet m k v) k' = if k' = k then some v else mapGet m k' := by
  induction m with
  | nil =>
    by_cases h : k = k'
    · subst h
      simp [mapSet, mapGet]
    · simp [mapSet, mapGet, h, Ne.symm h]
  | cons kv rest ih =>
    obtain ⟨k0, v0⟩ := kv
    by_cases h0 : k0 = k
    · subst h0
      by_cases h1 : k0 = k'
      · subst h1
        simp [mapSet, mapGet]
      · have h1' : ¬(k' = k0) := fun h => h1 h.symm
        simp [mapSet, mapGet, h1, h1']
    · by_cases h1 : k0 = k'
      · subst h1
        have h0' : ¬(k0 = k) := h0
        have h0s : ¬(k0 = k) → ¬(k0 = k) := id
        simp [mapSet, mapGet, h0, ih, fun h => h0 h]
      · simp [mapSet, mapGet, h0, h1, ih]

/-- The JavaScript builtin `String.prototype.startsWith`, modelled on the
scalar-value sequence. -/
def jsStartsWith (s pre : String) : Bool :=
  s.data.take pre.data.length == pre.data

/-- A secrets plugin (`ISecretsPlugin`): the display name (looked up in
`providerMap`), the async fetch (`getSecret`, a promise that resolves to the
value or `undefined`, or rejects), and the optional sync fetch. -/
structure Plugin where
  pluginName : String
  getSecret : String → Except String (Option String)
  getSecretSync : Option (String → Option String)

/-- The `SecretsManager` class state (secretsManager.ts:15).  `configSecrets`
stands for the flat merged mapping that `config({override:true, expand:true})`
returns at lazy initialization (the file/env loader is an external
collaborator).  `fetchLog` is pure instrumentation: it records each canonical
key for which `loadSecret` delegated to the plugin, so that "no provider
call" claims can be stated; no operation reads it. -/
structure SecretsManager where
  cache : List (String × String)
  publicCache : List (String × String)
  plugin : Plugin
  initialized : Bool
  configSecrets : List (String × String)
  fetchLog : List String

/-- One step of `initialize`'s partition loop (secretsManager.ts:53). -/
def initStep (acc : SecretsManager) (kv : String × String) : SecretsManager :=
  if jsStartsWith kv.1 "PUBLIC_" then
    { acc with publicCache := mapSet acc.publicCache kv.1 kv.2 }
  else
    { acc with cache := mapSet acc.cache kv.1 kv.2 }

/-- The `initialize` method of `SecretsManager` (secretsManager.ts:46),
renamed here: runs once, splitting the `config()` output into the public and
private caches. -/
def SecretsManager.initCaches (m : SecretsManager) : SecretsManager :=
  if m.initialized then m
  else m.configSecrets.foldl initStep { m with initialized := true }

/-- `SecretsManager.getSecretSync` (secretsManager.ts:101): pure cache read
after lazy initialization. -/
def SecretsManager.getSecretSync (m : SecretsManager) (key : String) :
    Option String × SecretsManager :=
  let m := m.initCaches
  (mapGet m.cache key, m)

/-- `SecretsManager.getPublicSync` (secretsManager.ts:120). -/
def SecretsManager.getPublicSync (m : SecretsManager) (key : String) :
    Option String × SecretsManager :=
  let m := m.initCaches
  (mapGet m.publicCache key, m)

/-- `SecretsManager.loadSecret` (secretsManager.ts:194): cache hit
short-circuits; otherwise the key is validated/normalized for the active
provider and the plugin's `getSecret` is awaited, the result being written
back into the private cache under the originally requested key.  There is no
try/catch: a rejection of the plugin promise propagates.  When the plugin
name is missing from `providerMap`, `validators[undefined].test` throws a
`TypeError` inside the async function, surfacing as a rejection. -/
def SecretsManager.loadSecret (m0 : SecretsManager) (key : String) :
    Except String (Option String) × SecretsManager :=
  let m := m0.initCaches
  match mapGet m.cache key with
  | some v => (.ok (some v), m)
  | none =>
    match providerMap m.plugin.pluginName with
    | none => (.error "TypeError: Cannot read properties of undefined", m)
    | some provider =>
      let providerSecret :=
        if validateSecretName provider key then key else normalizeSecretName provider key
      let m := { m with fetchLog := m.fetchLog ++ [key] }
      match m.plugin.getSecret providerSecret with
      | .error e => (.error e, m)
      | .ok (some v) => (.ok (some v), { m with cache := mapSet m.cache key v })
      | .ok none => (.ok none, m)

/-- The process state seen by the proxy: the manager singleton and the
module-global `preloadExecuted` flag (secretsProxy.ts:12). -/
structure World where
  manager : SecretsManager
  preloadExecuted : Bool

/-- `markPreloadExecuted` (secretsProxy.ts:32). -/
def markPreloadExecuted (w : World) : World :=
  { w with preloadExecuted := true }

/-- The `secrets` proxy `get` trap (secretsProxy.ts:1092) for a string
property.  `PUBLIC_` keys always get a sync-and-async wrapper from the public
cache (empty string default); other keys take the three-way branch: cached,
preload-executed-but-missing, or async-only via `loadSecret` (mapping a
provider `undefined` to the empty string). -/
def proxyGet (w : World) (key : String) : SecretValue × World :=
  if jsStartsWith key "PUBLIC_" then
    let r := w.manager.getPublicSync key
    let publicVal := r.1.getD ""
    (⟨key, some publicVal, .ok publicVal⟩, { w with manager := r.2 })
  else
    let r := w.manager.getSecretSync key
    match r.1 with
    | some cached => (⟨key, some cached, .ok cached⟩, { w with manager := r.2 })
    | none =>
      if w.preloadExecuted then
        (⟨key, some "", .ok ""⟩, { w with manager := r.2 })
      else
        let lr := r.2.loadSecret key
        (⟨key, none, lr.1.map fun val => val.getD ""⟩, { w with manager := lr.2 })

/-- One step of `preloadAllSecrets`' cache filter (preload.ts:149): keep the
key for loading when `!getSecretSync(key)` — true both for `undefined` and
for a cached empty string. -/
def preloadFilterStep (acc : SecretsManager × List String) (key : String) :
    SecretsManager × List String :=
  let r := acc.1.getSecretSync key
  match r.1 with
  | some s => if s = "" then (r.2, acc.2 ++ [key]) else (r.2, acc.2)
  | none => (r.2, acc.2 ++ [key])

/-- One step of `preloadAllSecrets`' loading phase (preload.ts:162): run
`loadSecret`, remembering the first rejection (`Promise.all` semantics). -/
def preloadLoadStep (acc : SecretsManager × Option String) (key : String) :
    SecretsManager × Option String :=
  let r := acc.1.loadSecret key
  match r.1 with
  | .error e => (r.2, acc.2 <|> some e)
  | .ok _ => (r.2, acc.2)

/-- `preloadAllSecrets` (preload.ts:140).  `references` is the key set the
code scanner found (the Babel scan of the project is an external
collaborator).  Step 2 filters out keys whose `getSecretSync` result is
truthy.  Step 3 loads the rest (`Promise.all`: every load runs to
completion, the aggregate rejects with the first rejection; modelled
sequentially, which agrees with the event-loop interleaving for the distinct
keys of a `Set`).  Only on success is the preload flag set. -/
def preloadAllSecrets (references : List String) (w : World) : Except String Unit × World :=
  let s1 := references.foldl preloadFilterStep (w.manager, ([] : List String))
  let s2 := s1.2.foldl preloadLoadStep (s1.1, (none : Option String))
  match s2.2 with
  | some e => (.error e, { w with manager := s2.1 })
  | none => (.ok (), markPreloadExecuted { w with manager := s2.1 })

/-! ### State-preservation facts about the manager operations -/

theorem foldl_initStep_fields (l : List (String × String)) (acc : SecretsManager) :
    (l.foldl initStep acc).plugin = acc.plugin ∧
    (l.foldl initStep acc).initialized = acc.initialized ∧
    (l.foldl initStep acc).fetchLog = acc.fetchLog ∧
    (l.foldl initStep acc).configSecrets = acc.configSecrets := by
  induction l generalizing acc with
  | nil => exact ⟨rfl, rfl, rfl, rfl⟩
  | cons kv rest ih =>
    rw [List.foldl_cons]
    have hstep : (initStep acc kv).plugin = acc.plugin ∧
        (initStep acc kv).initialized = acc.initialized ∧
        (initStep acc kv).fetchLog = acc.fetchLog ∧
        (initStep acc kv).configSecrets = acc.configSecrets := by
      rw [initStep]
      split <;> exact ⟨rfl, rfl, rfl, rfl⟩
    obtain ⟨a, b, c, d⟩ := ih (initStep acc kv)
    rw [a, b, c, d, hstep.1, hstep.2.1, hstep.2.2.1, hstep.2.2.2]
    exact ⟨rfl, rfl, rfl, rfl⟩

theorem initialize_plugin (m : SecretsManager) : m.initCaches.plugin = m.plugin := by
  rw [SecretsManager.initCaches]
  split
  · rfl
  · exact (foldl_initStep_fields _ _).1

theorem initialize_fetchLog (m : SecretsManager) : m.initCaches.fetchLog = m.fetchLog := by
  rw [SecretsManager.initCaches]
  split
  · rfl
  · exact (foldl_initStep_fields _ _).2.2.1

theorem initialize_initialized (m : SecretsManager) :
    m.initCaches.initialized = Bool.true := by
  rw [SecretsManager.initCaches]
  split
  · next h => exact h
  · exact (foldl_initStep_fields _ _).2.1

theorem initialize_of_initialized {m : SecretsManager} (h : m.initialized = Bool.true) :
    m.initCaches = m := by
  rw [SecretsManager.initCaches, if_pos h]

theorem initialize_idem (m : SecretsManager) : m.initCaches.initCaches = m.initCaches :=
  initialize_of_initialized (initialize_initialized m)

/-- The provider-side outcome `loadSecret` observes for an uncached key: how
the plugin answers once the key has been validated/normalized for it. -/
def fetchOutcome (p : Plugin) (key : String) : Except String (Option String) :=
  match providerMap p.pluginName with
  | none => .error "TypeError: Cannot read properties of undefined"
  | some provider =>
    p.getSecret (if validateSecretName provider key then key
      else normalizeSecretName provider key)

/-- `loadSecret`, characterized: a cache hit returns the cached value and the
(initialized) state unchanged; a miss logs the key in `fetchLog` and then
caches under the requested key exactly when the plugin answered with a
value. -/
theorem loadSecret_spec (m : SecretsManager) (key : String) :
    m.loadSecret key =
      match mapGet m.initCaches.cache key with
      | some v => (.ok (some v), m.initCaches)
      | none =>
        match providerMap m.initCaches.plugin.pluginName with
        | none => (.error "TypeError: Cannot read properties of undefined", m.initCaches)
        | some provider =>
          let mf := { m.initCaches with fetchLog := m.initCaches.fetchLog ++ [key] }
          match m.initCaches.plugin.getSecret (if validateSecretName provider key then key
            else normalizeSecretName provider key) with
          | .error e => (.error e, mf)
          | .ok (some v) => (.ok (some v), { mf with cache := mapSet mf.cache key v })
          | .ok none => (.ok none, mf) := by
  rw [SecretsManager.loadSecret]

/-- C2: accessing a `PUBLIC_` key through the proxy yields a wrapper whose
synchronous coercion never throws and equals the awaited value — the public
cache entry, or the empty string — in every preload state, without any
provider call. -/
theorem public_key_sync_equals_async (w : World) (key : String)
    (h : jsStartsWith key "PUBLIC_" = Bool.true) :
    ∃ v, (proxyGet w key).1 = ⟨key, some v, Except.ok v⟩ ∧
      (proxyGet w key).1.valueOf = Except.ok v ∧
      v = (mapGet w.manager.initCaches.publicCache key).getD "" ∧
      (proxyGet w key).2.manager.fetchLog = w.manager.fetchLog := by
  have h1 : proxyGet w key =
      (⟨key, some ((mapGet w.manager.initCaches.publicCache key).getD ""),
        Except.ok ((mapGet w.manager.initCaches.publicCache key).getD "")⟩,
       { w with manager := w.manager.initCaches }) := by
    rw [proxyGet, if_pos h]
    rfl
  rw [h1]
  exact ⟨_, rfl, rfl, rfl, initialize_fetchLog _⟩

/-- C2 witness. -/
theorem public_key_sync_equals_async_witness :
    ∃ v, (proxyGet ⟨⟨[], [("PUBLIC_APP", "dotsecrets")], ⟨"Local Secrets",
        fun _ => Except.ok none, none⟩, Bool.true, [], []⟩, Bool.false⟩ "PUBLIC_APP").1 =
        ⟨"PUBLIC_APP", some v, Except.ok v⟩ ∧
      (proxyGet ⟨⟨[], [("PUBLIC_APP", "dotsecrets")], ⟨"Local Secrets",
        fun _ => Except.ok none, none⟩, Bool.true, [], []⟩, Bool.false⟩ "PUBLIC_APP").1.valueOf =
        Except.ok v ∧
      v = (mapGet (SecretsManager.initCaches ⟨[], [("PUBLIC_APP", "dotsecrets")],
        ⟨"Local Secrets", fun _ => Except.ok none, none⟩, Bool.true, [], []⟩).publicCache
        "PUBLIC_APP").getD "" ∧
      (proxyGet ⟨⟨[], [("PUBLIC_APP", "dotsecrets")], ⟨"Local Secrets",
        fun _ => Except.ok none, none⟩, Bool.true, [], []⟩, Bool.false⟩ "PUBLIC_APP").2.manager.fetchLog =
      ([] : List String) :=
  public_key_sync_equals_async _ "PUBLIC_APP" (by decide)

/-- C3: once the preload flag is set, a non-`PUBLIC_` key absent from the
private cache yields a wrapper with sync and async value both the empty
string; the access does not throw and performs no provider call. -/
theorem preloaded_missing_key_empty (w : World) (key : String)
    (hpre : w.preloadExecuted = Bool.true)
    (hpub : jsStartsWith key "PUBLIC_" = Bool.false)
    (hmiss : mapGet w.manager.initCaches.cache key = none) :
    (proxyGet w key).1 = ⟨key, some "", Except.ok ""⟩ ∧
    (proxyGet w key).1.valueOf = Except.ok "" ∧
    (proxyGet w key).2.manager.fetchLog = w.manager.fetchLog := by
  have h1 : proxyGet w key =
      (⟨key, some "", Except.ok ""⟩, { w with manager := w.manager.initCaches }) := by
    rw [proxyGet, if_neg (by simp [hpub])]
    simp only [SecretsManager.getSecretSync, hmiss, hpre, if_true]
  rw [h1]
  exact ⟨rfl, rfl, initialize_fetchLog _⟩

/-- C3 witness. -/
theorem preloaded_missing_key_empty_witness :
    (proxyGet ⟨⟨[("OTHER", "x")], [], ⟨"Local Secrets", fun _ => Except.ok none, none⟩,
        Bool.true, [], []⟩, Bool.true⟩ "MISSING").1 = ⟨"MISSING", some "", Except.ok ""⟩ ∧
    (proxyGet ⟨⟨[("OTHER", "x")], [], ⟨"Local Secrets", fun _ => Except.ok none, none⟩,
        Bool.true, [], []⟩, Bool.true⟩ "MISSING").1.valueOf = Except.ok "" ∧
    (proxyGet ⟨⟨[("OTHER", "x")], [], ⟨"Local Secrets", fun _ => Except.ok none, none⟩,
        Bool.true, [], []⟩, Bool.true⟩ "MISSING").2.manager.fetchLog = ([] : List String) :=
  preloaded_missing_key_empty _ "MISSING" rfl (by decide) (by decide)

/-- C10: when `loadSecret` resolves an uncached key through the provider and
the provider returns a value, the value is cached under the originally
requested key (and only there); the subsequent `getSecretSync` with the same
key is a hit, and a second `loadSecret` returns the cached value without
touching the state (so no second provider call). -/
theorem loadSecret_caches_requested_key
    (m : SecretsManager) (key v : String) (provider : Provider)
    (hprov : providerMap m.plugin.pluginName = some provider)
    (hmiss : mapGet m.initCaches.cache key = none)
    (hfetch : m.plugin.getSecret (if validateSecretName provider key then key
      else normalizeSecretName provider key) = Except.ok (some v)) :
    (m.loadSecret key).1 = Except.ok (some v) ∧
    (∀ k', mapGet (m.loadSecret key).2.cache k' =
      if k' = key then some v else mapGet m.initCaches.cache k') ∧
    ((m.loadSecret key).2.getSecretSync key).1 = some v ∧
    (m.loadSecret key).2.loadSecret key = (Except.ok (some v), (m.loadSecret key).2) := by
  have hspec := loadSecret_spec m key
  simp only [hmiss, initialize_plugin, hprov, hfetch] at hspec
  have hcache : ∀ k', mapGet (m.loadSecret key).2.cache k' =
      if k' = key then some v else mapGet m.initCaches.cache k' := by
    intro k'
    rw [hspec]
    exact mapGet_mapSet _ _ _ _
  have hinit2 : (m.loadSecret key).2.initCaches = (m.loadSecret key).2 := by
    apply initialize_of_initialized
    rw [hspec]
    exact initialize_initialized m
  refine ⟨by rw [hspec], hcache, ?_, ?_⟩
  · rw [SecretsManager.getSecretSync]
    show mapGet (m.loadSecret key).2.initCaches.cache key = some v
    rw [hinit2, hcache key, if_pos rfl]
  · have hspec2 := loadSecret_spec (m.loadSecret key).2 key
    rw [hinit2] at hspec2
    rw [hcache key, if_pos rfl] at hspec2
    exact hspec2

/-- C10 witness. -/
theorem loadSecret_caches_requested_key_witness :
    ((SecretsManager.loadSecret ⟨[], [], ⟨"Local Secrets",
        fun k => Except.ok (if k = "API_KEY" then some "v123" else none), none⟩,
        Bool.true, [], []⟩ "API_KEY").1 = Except.ok (some "v123")) ∧
    (∀ k', mapGet (SecretsManager.loadSecret ⟨[], [], ⟨"Local Secrets",
        fun k => Except.ok (if k = "API_KEY" then some "v123" else none), none⟩,
        Bool.true, [], []⟩ "API_KEY").2.cache k' =
      if k' = "API_KEY" then some "v123"
      else mapGet (SecretsManager.initCaches ⟨[], [], ⟨"Local Secrets",
        fun k => Except.ok (if k = "API_KEY" then some "v123" else none), none⟩,
        Bool.true, [], []⟩).cache k') ∧
    (((SecretsManager.loadSecret ⟨[], [], ⟨"Local Secrets",
        fun k => Except.ok (if k = "API_KEY" then some "v123" else none), none⟩,
        Bool.true, [], []⟩ "API_KEY").2.getSecretSync "API_KEY").1 = some "v123") ∧
    ((SecretsManager.loadSecret ⟨[], [], ⟨"Local Secrets",
        fun k => Except.ok (if k = "API_KEY" then some "v123" else none), none⟩,
        Bool.true, [], []⟩ "API_KEY").2.loadSecret "API_KEY" =
      (Except.ok (some "v123"), (SecretsManager.loadSecret ⟨[], [], ⟨"Local Secrets",
        fun k => Except.ok (if k = "API_KEY" then some "v123" else none), none⟩,
        Bool.true, [], []⟩ "API_KEY").2)) :=
  loadSecret_caches_requested_key _ "API_KEY" "v123" .env rfl (by decide) rfl

/-- `AwsSecretsManagerPlugin.getSecret` (plugins/AWSSecretsManagerPlugin.ts:84)
for a successfully initialized client: the plugin re-normalizes the key via
`BaseSecretsPlugin.parseSecretName` (its `providerMap` lookup of
`"AWS Secrets Manager"` is `aws`, inlined here), then awaits the client call;
a rejection of the client call (transport/auth failure) is caught, logged as
a warning and returned as `undefined`.  `clientSend` models the AWS SDK
`send` of a `GetSecretValueCommand`: `.ok (some v)` a `SecretString`,
`.ok none` a response without one, `.error e` a rejection. -/
def awsGetSecret (clientSend : String → Except String (Option String)) (key : String) :
    Except String (Option String) :=
  let k := if validateSecretName .aws key then key else normalizeSecretName .aws key
  match clientSend k with
  | .ok v => .ok v
  | .error _ => .ok none

/-- The AWS plugin (initialized): name, async fetch, and the sync stub that
always answers `undefined`. -/
def awsPlugin (clientSend : String → Except String (Option String)) : Plugin :=
  ⟨"AWS Secrets Manager", awsGetSecret clientSend, some fun _ => none⟩

/-- C5 counterexample: `loadSecret` contains no try/catch, so when the active
plugin's `getSecret` promise rejects, `loadSecret` rejects too rather than
resolving to absent as the claim states. -/
def rejectingPlugin : Plugin :=
  ⟨"AWS Secrets Manager", fun _ => Except.error "transport failure", some fun _ => none⟩

theorem loadSecret_propagates_rejection :
    (SecretsManager.loadSecret ⟨[], [], rejectingPlugin, Bool.true, [], []⟩ "DB_KEY").1 =
      Except.error "transport failure" ∧
    (SecretsManager.loadSecret ⟨[], [], rejectingPlugin, Bool.true, [], []⟩ "DB_KEY").1 ≠
      Except.ok none := by
  have h : (SecretsManager.loadSecret ⟨[], [], rejectingPlugin, Bool.true, [], []⟩ "DB_KEY").1 =
      Except.error "transport failure" := rfl
  refine ⟨h, ?_⟩
  rw [h]
  simp

/-- C5 (amended): transport/auth failures are caught inside the provider
plugin's `getSecret` (AWS-style), logged as a warning and surfaced as
`undefined`, so for an uncached key `loadSecret` resolves to absent exactly
as for a not-found key and writes nothing into the cache.  (`loadSecret`
itself has no catch: a rejection of the plugin promise propagates, see the
counterexample.) -/
theorem transport_error_treated_as_absent
    (m : SecretsManager) (key e : String)
    (clientSend : String → Except String (Option String))
    (hplug : m.plugin = awsPlugin clientSend)
    (hmiss : mapGet m.initCaches.cache key = none)
    (hfail : ∀ k, clientSend k = Except.error e) :
    (m.loadSecret key).1 = Except.ok none ∧
    (∀ k', mapGet (m.loadSecret key).2.cache k' = mapGet m.initCaches.cache k') := by
  have hspec := loadSecret_spec m key
  have hout : m.plugin.getSecret (if validateSecretName .aws key then key
      else normalizeSecretName .aws key) = Except.ok none := by
    rw [hplug]
    show awsGetSecret clientSend _ = Except.ok none
    rw [awsGetSecret]
    simp only [hfail]
  have hname : providerMap m.plugin.pluginName = some .aws := by
    rw [hplug]
    rfl
  simp only [hmiss, initialize_plugin, hname, hout] at hspec
  constructor
  · rw [hspec]
  · intro k'
    rw [hspec]

/-- C5 witness. -/
theorem transport_error_treated_as_absent_witness :
    ((SecretsManager.loadSecret ⟨[], [], awsPlugin (fun _ => Except.error "auth failed"),
        Bool.true, [], []⟩ "DB_KEY").1 = Except.ok none) ∧
    (∀ k', mapGet (SecretsManager.loadSecret ⟨[], [], awsPlugin
        (fun _ => Except.error "auth failed"), Bool.true, [], []⟩ "DB_KEY").2.cache k' =
      mapGet (SecretsManager.initCaches ⟨[], [], awsPlugin
        (fun _ => Except.error "auth failed"), Bool.true, [], []⟩).cache k') :=
  transport_error_treated_as_absent _ "DB_KEY" "auth failed" _ rfl (by decide) (fun _ => rfl)

/-! ### Facts for the preload idempotence claim -/

theorem loadSecret_init (m : SecretsManager) (key : String) :
    (m.loadSecret key).2.initCaches = (m.loadSecret key).2 := by
  have hspec := loadSecret_spec m key
  cases hc : mapGet m.initCaches.cache key with
  | some v =>
    simp only [hc] at hspec
    rw [hspec]
    exact initialize_idem m
  | none =>
    simp only [hc] at hspec
    cases hp : providerMap m.initCaches.plugin.pluginName with
    | none =>
      simp only [hp] at hspec
      rw [hspec]
      exact initialize_idem m
    | some provider =>
      simp only [hp] at hspec
      cases hg : m.initCaches.plugin.getSecret
          (if validateSecretName provider key then key
            else normalizeSecretName provider key) with
      | error e =>
        simp only [hg] at hspec
        rw [hspec]
        exact initialize_of_initialized (initialize_initialized m)
      | ok o =>
        cases o with
        | none =>
          simp only [hg] at hspec
          rw [hspec]
          exact initialize_of_initialized (initialize_initialized m)
        | some v =>
          simp only [hg] at hspec
          rw [hspec]
          exact initialize_of_initialized (initialize_initialized m)

theorem loadSecret_plugin (m : SecretsManager) (key : String) :
    (m.loadSecret key).2.plugin = m.plugin := by
  have hspec := loadSecret_spec m key
  cases hc : mapGet m.initCaches.cache key with
  | some v =>
    simp only [hc] at hspec
    rw [hspec]
    exact initialize_plugin m
  | none =>
    simp only [hc] at hspec
    cases hp : providerMap m.initCaches.plugin.pluginName with
    | none =>
      simp only [hp] at hspec
      rw [hspec]
      exact initialize_plugin m
    | some provider =>
      simp only [hp] at hspec
      cases hg : m.initCaches.plugin.getSecret
          (if validateSecretName provider key then key
            else normalizeSecretName provider key) with
      | error e =>
        simp only [hg] at hspec
        rw [hspec]
        exact initialize_plugin m
      | ok o =>
        cases o with
        | none =>
          simp only [hg] at hspec
          rw [hspec]
          exact initialize_plugin m
        | some v =>
          simp only [hg] at hspec
          rw [hspec]
          exact initialize_plugin m

theorem loadSecret_cache_mono {m : SecretsManager} {key k v : String}
    (h : mapGet m.initCaches.cache k = some v) :
    mapGet (m.loadSecret key).2.cache k = some v := by
  have hspec := loadSecret_spec m key
  cases hc : mapGet m.initCaches.cache key with
  | some w =>
    simp only [hc] at hspec
    rw [hspec]
    exact h
  | none =>
    simp only [hc] at hspec
    cases hp : providerMap m.initCaches.plugin.pluginName with
    | none =>
      simp only [hp] at hspec
      rw [hspec]
      exact h
    | some provider =>
      simp only [hp] at hspec
      cases hg : m.initCaches.plugin.getSecret
          (if validateSecretName provider key then key
            else normalizeSecretName provider key) with
      | error e =>
        simp only [hg] at hspec
        rw [hspec]
        exact h
      | ok o =>
        cases o with
        | none =>
          simp only [hg] at hspec
          rw [hspec]
          exact h
        | some w =>
          simp only [hg] at hspec
          rw [hspec]
          show mapGet (mapSet m.initCaches.cache key w) k = some v
          rw [mapGet_mapSet, if_neg]
          · exact h
          · rintro rfl
            rw [h] at hc
            cases hc

/-- The manager component of the preload loading fold. -/
def loadFold (keys : List String) (m : SecretsManager) : SecretsManager :=
  keys.foldl (fun acc k => (acc.loadSecret k).2) m

theorem foldLoad_manager (keys : List String) (m : SecretsManager) (e : Option String) :
    (keys.foldl preloadLoadStep (m, e)).1 = loadFold keys m := by
  induction keys generalizing m e with
  | nil => rfl
  | cons key rest ih =>
    rw [List.foldl_cons]
    have hstep : preloadLoadStep (m, e) key =
        ((m.loadSecret key).2, (match (m.loadSecret key).1 with
          | .error err => e <|> some err
          | .ok _ => e)) := by
      rw [preloadLoadStep]
      cases (m.loadSecret key).1 <;> rfl
    rw [hstep]
    rw [ih]
    rfl

theorem loadFold_plugin (keys : List String) (m : SecretsManager) :
    (loadFold keys m).plugin = m.plugin := by
  induction keys generalizing m with
  | nil => rfl
  | cons key rest ih =>
    show (loadFold rest (m.loadSecret key).2).plugin = m.plugin
    rw [ih, loadSecret_plugin]

theorem loadFold_init (keys : List String) (m : SecretsManager) (hini : m.initCaches = m) :
    (loadFold keys m).initCaches = loadFold keys m := by
  induction keys generalizing m with
  | nil => exact hini
  | cons key rest ih =>
    show (loadFold rest (m.loadSecret key).2).initCaches = loadFold rest (m.loadSecret key).2
    exact ih _ (loadSecret_init m key)

theorem loadFold_mono (keys : List String) {m : SecretsManager} {k v : String}
    (hini : m.initCaches = m) (h : mapGet m.cache k = some v) :
    mapGet (loadFold keys m).cache k = some v := by
  induction keys generalizing m with
  | nil => exact h
  | cons key rest ih =>
    show mapGet (loadFold rest (m.loadSecret key).2).cache k = some v
    exact ih (loadSecret_init m key) (loadSecret_cache_mono (by rw [hini]; exact h))

theorem loadFold_none_back (keys : List String) {m : SecretsManager} {k : String}
    (hini : m.initCaches = m) (h : mapGet (loadFold keys m).cache k = none) :
    mapGet m.cache k = none := by
  cases hc : mapGet m.cache k with
  | none => rfl
  | some v =>
    rw [loadFold_mono keys hini hc] at h
    cases h

theorem fetchOutcome_eq {p : Plugin} {provider : Provider} (key : String)
    (hp : providerMap p.pluginName = some provider) :
    fetchOutcome p key =
      p.getSecret (if validateSecretName provider key then key
        else normalizeSecretName provider key) := by
  simp only [fetchOutcome, hp]

/-- If a key of the load list ends up uncached, the provider never answered it
with a value: its `fetchOutcome` is a rejection or an explicit absence. -/
theorem loadFold_none_outcome (keys : List String) (m : SecretsManager)
    (hini : m.initCaches = m) {k : String} (hk : k ∈ keys)
    (hnone : mapGet (loadFold keys m).cache k = none) (v : String) :
    fetchOutcome m.plugin k ≠ Except.ok (some v) := by
  induction keys generalizing m with
  | nil => cases hk
  | cons key rest ih =>
    have hstep : loadFold (key :: rest) m = loadFold rest (m.loadSecret key).2 := rfl
    rw [hstep] at hnone
    have hini' : (m.loadSecret key).2.initCaches = (m.loadSecret key).2 :=
      loadSecret_init m key
    rcases List.mem_cons.mp hk with hkey | hkrest
    · subst hkey
      have hspec := loadSecret_spec m k
      cases hc : mapGet m.initCaches.cache k with
      | some v0 =>
        exfalso
        simp only [hc] at hspec
        have h2 : mapGet (m.loadSecret k).2.cache k = some v0 := by
          rw [hspec]
          exact hc
        rw [loadFold_mono rest hini' h2] at hnone
        cases hnone
      | none =>
        simp only [hc] at hspec
        cases hp : providerMap m.initCaches.plugin.pluginName with
        | none =>
          intro hcontra
          rw [hini] at hp
          rw [fetchOutcome, hp] at hcontra
          cases hcontra
        | some provider =>
          simp only [hp] at hspec
          cases hg : m.initCaches.plugin.getSecret
              (if validateSecretName provider k then k
                else normalizeSecretName provider k) with
          | error e =>
            intro hcontra
            rw [hini] at hp hg
            rw [fetchOutcome_eq k hp, hg] at hcontra
            cases hcontra
          | ok o =>
            cases o with
            | none =>
              intro hcontra
              rw [hini] at hp hg
              rw [fetchOutcome_eq k hp, hg] at hcontra
              cases hcontra
            | some v1 =>
              exfalso
              simp only [hg] at hspec
              have h2 : mapGet (m.loadSecret k).2.cache k = some v1 := by
                rw [hspec]
                show mapGet (mapSet _ k v1) k = some v1
                rw [mapGet_mapSet, if_pos rfl]
              rw [loadFold_mono rest hini' h2] at hnone
              cases hnone
    · have hplug : (m.loadSecret key).2.plugin = m.plugin := loadSecret_plugin m key
      have := ih (m.loadSecret key).2 hini' hkrest hnone
      rw [hplug] at this
      exact this

/-- Loading a key list over a state in which every still-uncached key's
provider outcome is valueless changes no cache entry; it only appends
(uncached) keys to the fetch log. -/
theorem loadFold_stable (keys : List String) (m : SecretsManager)
    (hini : m.initCaches = m)
    (hsafe : ∀ k, k ∈ keys → mapGet m.cache k = none →
      ∀ v, fetchOutcome m.plugin k ≠ Except.ok (some v)) :
    (loadFold keys m).cache = m.cache ∧
    ∃ extra, (loadFold keys m).fetchLog = m.fetchLog ++ extra ∧
      ∀ k, k ∈ extra → mapGet m.cache k = none := by
  induction keys generalizing m with
  | nil =>
    exact ⟨rfl, [], by simp [loadFold], fun k hk => absurd hk (List.not_mem_nil k)⟩
  | cons key rest ih =>
    have hini' := loadSecret_init m key
    have hstep : loadFold (key :: rest) m = loadFold rest (m.loadSecret key).2 := rfl
    have hspec := loadSecret_spec m key
    cases hc : mapGet m.initCaches.cache key with
    | some v0 =>
      simp only [hc] at hspec
      have hm' : (m.loadSecret key).2 = m := by
        rw [hspec]
        exact hini
      rw [hstep, hm']
      exact ih m hini (fun k hk => hsafe k (List.mem_cons_of_mem _ hk))
    | none =>
      simp only [hc] at hspec
      have hc' : mapGet m.cache key = none := by
        rw [← hini]
        exact hc
      cases hp : providerMap m.initCaches.plugin.pluginName with
      | none =>
        simp only [hp] at hspec
        have hm' : (m.loadSecret key).2 = m := by
          rw [hspec]
          exact hini
        rw [hstep, hm']
        exact ih m hini (fun k hk => hsafe k (List.mem_cons_of_mem _ hk))
      | some provider =>
        simp only [hp] at hspec
        cases hg : m.initCaches.plugin.getSecret
            (if validateSecretName provider key then key
              else normalizeSecretName provider key) with
        | error e =>
          simp only [hg] at hspec
          have hm' : (m.loadSecret key).2 =
              { m with fetchLog := m.fetchLog ++ [key] } := by
            rw [hspec, hini]
          have hsafe' : ∀ k, k ∈ rest → mapGet (m.loadSecret key).2.cache k = none →
              ∀ v, fetchOutcome (m.loadSecret key).2.plugin k ≠ Except.ok (some v) := by
            intro k hk hnone v
            rw [hm'] at hnone ⊢
            exact hsafe k (List.mem_cons_of_mem _ hk) hnone v
          obtain ⟨hcache, extra, hlog, hmem⟩ := ih (m.loadSecret key).2 hini' hsafe'
          refine ⟨?_, key :: extra, ?_, ?_⟩
          · rw [hstep, hcache, hm']
          · rw [hstep, hlog, hm']
            simp [List.append_assoc]
          · intro k hk
            rcases List.mem_cons.mp hk with rfl | hk'
            · exact hc'
            · have := hmem k hk'
              rw [hm'] at this
              exact this
        | ok o =>
          cases o with
          | none =>
            simp only [hg] at hspec
            have hm' : (m.loadSecret key).2 =
                { m with fetchLog := m.fetchLog ++ [key] } := by
              rw [hspec, hini]
            have hsafe' : ∀ k, k ∈ rest → mapGet (m.loadSecret key).2.cache k = none →
                ∀ v, fetchOutcome (m.loadSecret key).2.plugin k ≠ Except.ok (some v) := by
              intro k hk hnone v
              rw [hm'] at hnone ⊢
              exact hsafe k (List.mem_cons_of_mem _ hk) hnone v
            obtain ⟨hcache, extra, hlog, hmem⟩ := ih (m.loadSecret key).2 hini' hsafe'
            refine ⟨?_, key :: extra, ?_, ?_⟩
            · rw [hstep, hcache, hm']
            · rw [hstep, hlog, hm']
              simp [List.append_assoc]
            · intro k hk
              rcases List.mem_cons.mp hk with rfl | hk'
              · exact hc'
              · have := hmem k hk'
                rw [hm'] at this
                exact this
          | some v1 =>
            exfalso
            have houtcome : fetchOutcome m.plugin key = Except.ok (some v1) := by
              rw [hini] at hp hg
              rw [fetchOutcome_eq key hp, hg]
            exact hsafe key (List.mem_cons_self _ _) hc' v1 houtcome

/-- The JavaScript truthiness test `!getSecretSync(key)` of the preload
filter: an absent key is falsy, and so is a cached empty string. -/
def falsyCached (cache : List (String × String)) (k : String) : Bool :=
  match mapGet cache k with
  | none => true
  | some s => s == ""

theorem filterStep_spec (m : SecretsManager) (acc : List String) (key : String) :
    preloadFilterStep (m, acc) key =
      (m.initCaches, acc ++ if falsyCached m.initCaches.cache key then [key] else []) := by
  cases hc : mapGet m.initCaches.cache key with
  | none =>
    simp [preloadFilterStep, SecretsManager.getSecretSync, hc, falsyCached]
  | some s =>
    by_cases hs : s = ""
    · subst hs
      simp [preloadFilterStep, SecretsManager.getSecretSync, hc, falsyCached]
    · simp [preloadFilterStep, SecretsManager.getSecretSync, hc, falsyCached, hs]

theorem foldFilter_spec (rest : List String) (m : SecretsManager)
    (hini : m.initCaches = m) :
    ∀ acc : List String, rest.foldl preloadFilterStep (m, acc) =
      (m, acc ++ rest.filter (falsyCached m.cache)) := by
  induction rest with
  | nil => intro acc; simp
  | cons key rest ih =>
    intro acc
    rw [List.foldl_cons, filterStep_spec, hini]
    cases hk : falsyCached m.cache key with
    | true =>
      rw [if_pos rfl, ih]
      simp [List.filter_cons, hk, List.append_assoc]
    | false =>
      rw [if_neg Bool.false_ne_true, ih]
      simp [List.filter_cons, hk]

theorem foldFilter_full (key : String) (rest : List String) (m : SecretsManager) :
    (key :: rest).foldl preloadFilterStep (m, ([] : List String)) =
      (m.initCaches, (key :: rest).filter (falsyCached m.initCaches.cache)) := by
  rw [List.foldl_cons, filterStep_spec,
    foldFilter_spec rest m.initCaches (initialize_idem m)]
  cases hk : falsyCached m.initCaches.cache key with
  | true => simp [hk, List.filter_cons]
  | false => simp [hk, List.filter_cons]

/-- The manager left behind by a (non-vacuous) bulk preload is exactly the
load fold over the falsy-filtered reference list. -/
theorem preload_manager (key : String) (rest : List String) (w : World) :
    (preloadAllSecrets (key :: rest) w).2.manager =
      loadFold ((key :: rest).filter (falsyCached w.manager.initCaches.cache))
        w.manager.initCaches := by
  have h1 := foldFilter_full key rest w.manager
  cases he : (((key :: rest).filter (falsyCached w.manager.initCaches.cache)).foldl
      preloadLoadStep (w.manager.initCaches, (none : Option String))).2 with
  | none =>
    simp only [preloadAllSecrets, h1, he, markPreloadExecuted]
    exact foldLoad_manager _ _ _
  | some e =>
    simp only [preloadAllSecrets, h1, he]
    exact foldLoad_manager _ _ _

/-- C6: the bulk preload is idempotent on the private cache — running
`preloadAllSecrets` a second time over the same reference list leaves the
cache exactly as after the first run — and every provider fetch the second
run performs (every key it appends to the fetch log) is for a key that is
still absent from the cache after the first run, so no already-cached key is
fetched twice. -/
theorem preload_idempotent (refs : List String) (w : World) :
    (preloadAllSecrets refs (preloadAllSecrets refs w).2).2.manager.cache
        = (preloadAllSecrets refs w).2.manager.cache ∧
    ∃ extra,
      (preloadAllSecrets refs (preloadAllSecrets refs w).2).2.manager.fetchLog
          = (preloadAllSecrets refs w).2.manager.fetchLog ++ extra ∧
      ∀ k, k ∈ extra → mapGet (preloadAllSecrets refs w).2.manager.cache k = none := by
  cases refs with
  | nil =>
    exact ⟨rfl, [], (List.append_nil _).symm, fun k hk => absurd hk (List.not_mem_nil k)⟩
  | cons key rest =>
    have hm1 : (preloadAllSecrets (key :: rest) w).2.manager =
        loadFold ((key :: rest).filter (falsyCached w.manager.initCaches.cache))
          w.manager.initCaches := preload_manager key rest w
    have hini1 : (preloadAllSecrets (key :: rest) w).2.manager.initCaches
        = (preloadAllSecrets (key :: rest) w).2.manager := by
      rw [hm1]
      exact loadFold_init _ _ (initialize_idem w.manager)
    have hplug1 : (preloadAllSecrets (key :: rest) w).2.manager.plugin
        = w.manager.initCaches.plugin := by
      rw [hm1]
      exact loadFold_plugin _ _
    have hm2 := preload_manager key rest (preloadAllSecrets (key :: rest) w).2
    rw [hini1] at hm2
    have hsafe : ∀ k, k ∈ (key :: rest).filter
          (falsyCached (preloadAllSecrets (key :: rest) w).2.manager.cache) →
        mapGet (preloadAllSecrets (key :: rest) w).2.manager.cache k = none →
        ∀ v, fetchOutcome (preloadAllSecrets (key :: rest) w).2.manager.plugin k
          ≠ Except.ok (some v) := by
      intro k hk hnone v
      have hkrefs : k ∈ key :: rest := List.mem_of_mem_filter hk
      rw [hplug1]
      by_cases hk0 : falsyCached w.manager.initCaches.cache k = true
      · have hkF0 : k ∈ (key :: rest).filter (falsyCached w.manager.initCaches.cache) :=
          List.mem_filter.mpr ⟨hkrefs, hk0⟩
        have hnone' : mapGet (loadFold
            ((key :: rest).filter (falsyCached w.manager.initCaches.cache))
            w.manager.initCaches).cache k = none := by
          rw [← hm1]
          exact hnone
        exact loadFold_none_outcome _ _ (initialize_idem w.manager) hkF0 hnone' v
      · exfalso
        cases hc : mapGet w.manager.initCaches.cache k with
        | none => exact hk0 (by simp [falsyCached, hc])
        | some s =>
          have hs : mapGet (preloadAllSecrets (key :: rest) w).2.manager.cache k
              = some s := by
            rw [hm1]
            exact loadFold_mono _ (initialize_idem w.manager) hc
          rw [hs] at hnone
          cases hnone
    obtain ⟨hcache, extra, hlog, hmem⟩ :=
      loadFold_stable _ (preloadAllSecrets (key :: rest) w).2.manager hini1 hsafe
    refine ⟨?_, extra, ?_, hmem⟩
    · rw [hm2]
      exact hcache
    · rw [hm2]
      exact hlog

/-! ### Variable expansion (`expandVariables`, secretsManager.ts:490) -/

theorem expand_dec_main (p : Char → Bool) (c : Char) (rest : List Char)
    (h2 : rest.tail.dropWhile p ≠ []) :
    ((rest.tail.dropWhile p).tail).length < (c :: rest).length := by
  have hd := length_dropWhile_le p rest.tail
  have ht : rest.tail.length ≤ rest.length := by
    cases rest <;> simp [List.tail]
  have hpos : 0 < (rest.tail.dropWhile p).length := by
    cases hcase : rest.tail.dropWhile p with
    | nil => exact absurd hcase h2
    | cons a as => simp
  have htail : ((rest.tail.dropWhile p).tail).length =
      (rest.tail.dropWhile p).length - 1 := by
    cases rest.tail.dropWhile p <;> simp [List.tail]
  simp only [List.length_cons, htail]
  omega

/-- One pass of `originalValue.replace(/\$\x7b([^}]+)\x7d/g, cb)`: scan left to
right; at `"$"` immediately followed by `"\x7b"`, a match needs a nonempty run
of non-`'}'` characters closed by `'}'`; the reference is replaced by the
looked-up value (`""` when the key is absent) and scanning resumes after the
closing brace; otherwise the character is emitted and scanning moves one
position right.  Replacement text is not rescanned in the same pass. -/
def expandValue (lookup : String → Option String) : List Char → List Char
  | [] => []
  | c :: rest =>
    if c = '$' ∧ rest.head? = some '{' then
      if h2 : rest.tail.takeWhile (fun x => !(x == '}')) ≠ [] ∧
          rest.tail.dropWhile (fun x => !(x == '}')) ≠ [] then
        ((lookup ⟨rest.tail.takeWhile (fun x => !(x == '}'))⟩).getD "").data ++
          expandValue lookup (rest.tail.dropWhile (fun x => !(x == '}'))).tail
      else c :: expandValue lookup rest
    else c :: expandValue lookup rest
termination_by l => l.length
decreasing_by
  · exact expand_dec_main _ _ _ h2.2
  · exact Nat.lt_succ_self _
  · exact Nat.lt_succ_self _

/-- One step of a sweep of `expandVariables`' `for` loop: re-expand the value
of `key` against the current (sequentially updated) mapping, record whether
anything changed.  (The mirror write to `process.env` is an external side
effect outside the model.) -/
def sweepStep (acc : List (String × String) × Bool) (key : String) :
    List (String × String) × Bool :=
  match mapGet acc.1 key with
  | none => acc
  | some originalValue =>
    if (⟨expandValue (mapGet acc.1) originalValue.data⟩ : String) = originalValue then acc
    else (mapSet acc.1 key (⟨expandValue (mapGet acc.1) originalValue.data⟩ : String), true)

/-- `expandVariables`' `while (changed)` loop, made total by explicit fuel:
`none` means the fuel ran out with the mapping still changing — the source
loop would still be running. -/
def expandVariablesFuel : Nat → List (String × String) → Option (List (String × String))
  | 0, _ => none
  | fuel + 1, vars =>
    if ((vars.map Prod.fst).foldl sweepStep (vars, false)).2
    then expandVariablesFuel fuel ((vars.map Prod.fst).foldl sweepStep (vars, false)).1
    else some ((vars.map Prod.fst).foldl sweepStep (vars, false)).1

/-- Divergence of the source's `while (changed)` loop on a mapping: no amount
of fuel reaches the fixpoint. -/
def expandDiverges (vars : List (String × String)) : Prop :=
  ∀ fuel, expandVariablesFuel fuel vars = none

theorem expandValue_nil (lookup : String → Option String) :
    expandValue lookup [] = [] := by
  rw [expandValue]

theorem expandValue_cons_plain (lookup : String → Option String) (c : Char)
    (rest : List Char) (h : ¬(c = '$' ∧ rest.head? = some '{')) :
    expandValue lookup (c :: rest) = c :: expandValue lookup rest := by
  rw [expandValue, if_neg h]

theorem expandValue_no_dollar (lookup : String → Option String) (l : List Char)
    (h : ∀ c ∈ l, ¬(c = '$')) : expandValue lookup l = l := by
  induction l with
  | nil => rw [expandValue]
  | cons c rest ih =>
    rw [expandValue_cons_plain lookup c rest
        (fun hc => h c (List.mem_cons_self c rest) hc.1),
      ih (fun x hx => h x (List.mem_cons_of_mem _ hx))]

theorem takeWhile_rb (name t : List Char) (h : ∀ c ∈ name, ¬(c = '}')) :
    (name ++ '}' :: t).takeWhile (fun x => !(x == '}')) = name := by
  induction name with
  | nil => simp [List.takeWhile_cons]
  | cons a as ih =>
    have ha : ¬(a = '}') := h a (List.mem_cons_self a as)
    simp [List.takeWhile_cons, ha, ih (fun c hc => h c (List.mem_cons_of_mem _ hc))]

theorem dropWhile_rb (name t : List Char) (h : ∀ c ∈ name, ¬(c = '}')) :
    (name ++ '}' :: t).dropWhile (fun x => !(x == '}')) = '}' :: t := by
  induction name with
  | nil => simp [List.dropWhile_cons]
  | cons a as ih =>
    have ha : ¬(a = '}') := h a (List.mem_cons_self a as)
    simp [List.dropWhile_cons, ha, ih (fun c hc => h c (List.mem_cons_of_mem _ hc))]

/-- A well-formed reference at the scan head is replaced by the looked-up
value (empty string when the key is absent), scanning continuing after the
closing brace. -/
theorem expandValue_ref (lookup : String → Option String) (name t : List Char)
    (h1 : name ≠ []) (h2 : ∀ c ∈ name, ¬(c = '}')) :
    expandValue lookup ('$' :: '{' :: (name ++ '}' :: t)) =
      ((lookup ⟨name⟩).getD "").data ++ expandValue lookup t := by
  have htw : ('{' :: (name ++ '}' :: t) : List Char).tail.takeWhile
      (fun x => !(x == '}')) = name := takeWhile_rb name t h2
  have hdw : ('{' :: (name ++ '}' :: t) : List Char).tail.dropWhile
      (fun x => !(x == '}')) = '}' :: t := dropWhile_rb name t h2
  rw [expandValue, if_pos ⟨rfl, rfl⟩,
    dif_pos ⟨by rw [htw]; exact h1, by rw [hdw]; simp⟩, htw, hdw]
  rfl

/-- On the single-entry mapping `A = "$\x7bA\x7dx..."` every sweep appends the
trailing `x`-run to the value (the reference re-expands to the current, ever
longer, value), so `changed` never goes false and the fuel always runs out. -/
theorem diverge_aux (fuel : Nat) : ∀ (t : List Char), t ≠ [] → (∀ c ∈ t, c = 'x') →
    expandVariablesFuel fuel [("A", (⟨'$' :: '{' :: 'A' :: '}' :: t⟩ : String))] = none := by
  induction fuel with
  | zero => intro t _ _; rfl
  | succ fuel ih =>
    intro t ht hx
    have hnodollar : ∀ c ∈ t, ¬(c = '$') := by
      intro c hc hcon
      rw [hx c hc] at hcon
      exact absurd hcon (by decide)
    have hget : mapGet [("A", (⟨'$' :: '{' :: 'A' :: '}' :: t⟩ : String))]
        (⟨['A']⟩ : String) = some ⟨'$' :: '{' :: 'A' :: '}' :: t⟩ := rfl
    have hexp : expandValue (mapGet [("A", (⟨'$' :: '{' :: 'A' :: '}' :: t⟩ : String))])
        ('$' :: '{' :: 'A' :: '}' :: t) = ('$' :: '{' :: 'A' :: '}' :: (t ++ t)) := by
      have h1 : (['A'] : List Char) ≠ [] := by simp
      have h2 : ∀ c ∈ (['A'] : List Char), ¬(c = '}') := by decide
      have hr := expandValue_ref
        (mapGet [("A", (⟨'$' :: '{' :: 'A' :: '}' :: t⟩ : String))]) ['A'] t h1 h2
      simp only [List.cons_append, List.nil_append] at hr
      rw [hr, hget, expandValue_no_dollar _ t hnodollar]
      rfl
    have hne : (⟨'$' :: '{' :: 'A' :: '}' :: (t ++ t)⟩ : String) ≠
        ⟨'$' :: '{' :: 'A' :: '}' :: t⟩ := by
      intro hcon
      have hlen := congrArg (fun s => s.data.length) hcon
      simp only [List.length_cons, List.length_append] at hlen
      have hpos : 0 < t.length := List.length_pos.mpr ht
      omega
    have hsweep : (([("A", (⟨'$' :: '{' :: 'A' :: '}' :: t⟩ : String))].map
          Prod.fst).foldl sweepStep
          ([("A", (⟨'$' :: '{' :: 'A' :: '}' :: t⟩ : String))], false)) =
        ([("A", (⟨'$' :: '{' :: 'A' :: '}' :: (t ++ t)⟩ : String))], true) := by
      rw [show ([("A", (⟨'$' :: '{' :: 'A' :: '}' :: t⟩ : String))].map Prod.fst)
          = ["A"] from rfl, List.foldl_cons, List.foldl_nil]
      have hgetA : mapGet [("A", (⟨'$' :: '{' :: 'A' :: '}' :: t⟩ : String))] "A"
          = some ⟨'$' :: '{' :: 'A' :: '}' :: t⟩ := rfl
      rw [sweepStep]
      simp only [hgetA, hexp]
      rw [if_neg hne]
      rfl
    rw [expandVariablesFuel]
    simp only [hsweep]
    rw [if_pos trivial]
    exact ih (t ++ t) (fun hcon => ht (List.append_eq_nil.mp hcon).1)
      (fun c hc => (List.mem_append.mp hc).elim (hx c) (hx c))

theorem sweepStep_cases (acc : List (String × String) × Bool) (key : String) :
    sweepStep acc key = acc ∨ (sweepStep acc key).2 = true := by
  cases hg : mapGet acc.1 key with
  | none =>
    left
    simp only [sweepStep, hg]
  | some o =>
    by_cases hcond : (⟨expandValue (mapGet acc.1) o.data⟩ : String) = o
    · left
      simp only [sweepStep, hg, if_pos hcond]
    · right
      simp only [sweepStep, hg, if_neg hcond]

theorem sweep_flag_mono (keys : List String) (acc : List (String × String) × Bool)
    (h : acc.2 = true) : (keys.foldl sweepStep acc).2 = true := by
  induction keys generalizing acc with
  | nil => exact h
  | cons key rest ih =>
    rw [List.foldl_cons]
    apply ih
    rcases sweepStep_cases acc key with heq | htrue
    · rw [heq]
      exact h
    · exact htrue

/-- If a sweep comes back with `changed = false`, it did not touch the
mapping. -/
theorem sweep_false_id (keys : List String) : ∀ vars : List (String × String),
    (keys.foldl sweepStep (vars, false)).2 = false →
    (keys.foldl sweepStep (vars, false)).1 = vars := by
  induction keys with
  | nil => intro vars _; rfl
  | cons key rest ih =>
    intro vars hfl
    rw [List.foldl_cons] at hfl ⊢
    rcases sweepStep_cases (vars, false) key with heq | htrue
    · rw [heq] at hfl ⊢
      exact ih vars hfl
    · exfalso
      have hmono := sweep_flag_mono rest _ htrue
      rw [hmono] at hfl
      exact absurd hfl (by decide)

/-- Whenever the fueled loop does stop, it stops at a fixpoint: one more
sweep over the result changes nothing. -/
theorem expandFuel_fixpoint (fuel : Nat) : ∀ vars vars' : List (String × String),
    expandVariablesFuel fuel vars = some vars' →
    expandVariablesFuel 1 vars' = some vars' := by
  induction fuel with
  | zero => intro vars vars' h; exact Option.noConfusion h
  | succ fuel ih =>
    intro vars vars' h
    rw [expandVariablesFuel] at h
    by_cases hc : ((vars.map Prod.fst).foldl sweepStep (vars, false)).2 = true
    · rw [if_pos hc] at h
      exact ih _ _ h
    · rw [if_neg hc] at h
      have hfalse : ((vars.map Prod.fst).foldl sweepStep (vars, false)).2 = false :=
        Bool.eq_false_iff.mpr hc
      have hid := sweep_false_id (vars.map Prod.fst) vars hfalse
      injection h with h2
      rw [hid] at h2
      subst h2
      rw [expandVariablesFuel, if_neg hc, hid]

/-- The referenced keys of a value, in scan order: mirrors `expandValue`
branch for branch, collecting the inner name of each well-formed reference. -/
def expandRefs : List Char → List String
  | [] => []
  | c :: rest =>
    if c = '$' ∧ rest.head? = some '{' then
      if h2 : rest.tail.takeWhile (fun x => !(x == '}')) ≠ [] ∧
          rest.tail.dropWhile (fun x => !(x == '}')) ≠ [] then
        (⟨rest.tail.takeWhile (fun x => !(x == '}'))⟩ : String) ::
          expandRefs (rest.tail.dropWhile (fun x => !(x == '}'))).tail
      else expandRefs rest
    else expandRefs rest
termination_by l => l.length
decreasing_by
  · exact expand_dec_main _ _ _ h2.2
  · exact Nat.lt_succ_self _
  · exact Nat.lt_succ_self _

theorem expandRefs_nil : expandRefs [] = [] := by
  rw [expandRefs]

theorem expandRefs_cons_plain (c : Char) (rest : List Char)
    (h : ¬(c = '$' ∧ rest.head? = some '{')) :
    expandRefs (c :: rest) = expandRefs rest := by
  rw [expandRefs, if_neg h]

theorem expandRefs_cons_nomatch (c : Char) (rest : List Char)
    (hc : c = '$' ∧ rest.head? = some '{')
    (h2 : ¬(rest.tail.takeWhile (fun x => !(x == '}')) ≠ [] ∧
        rest.tail.dropWhile (fun x => !(x == '}')) ≠ [])) :
    expandRefs (c :: rest) = expandRefs rest := by
  rw [expandRefs, if_pos hc, dif_neg h2]

theorem expandRefs_cons_match (c : Char) (rest : List Char)
    (hc : c = '$' ∧ rest.head? = some '{')
    (h2 : rest.tail.takeWhile (fun x => !(x == '}')) ≠ [] ∧
        rest.tail.dropWhile (fun x => !(x == '}')) ≠ []) :
    expandRefs (c :: rest) =
      (⟨rest.tail.takeWhile (fun x => !(x == '}'))⟩ : String) ::
        expandRefs (rest.tail.dropWhile (fun x => !(x == '}'))).tail := by
  rw [expandRefs, if_pos hc, dif_pos h2]

theorem expandValue_cons_nomatch (lookup : String → Option String) (c : Char)
    (rest : List Char) (hc : c = '$' ∧ rest.head? = some '{')
    (h2 : ¬(rest.tail.takeWhile (fun x => !(x == '}')) ≠ [] ∧
        rest.tail.dropWhile (fun x => !(x == '}')) ≠ [])) :
    expandValue lookup (c :: rest) = c :: expandValue lookup rest := by
  rw [expandValue, if_pos hc, dif_neg h2]

theorem expandValue_cons_match (lookup : String → Option String) (c : Char)
    (rest : List Char) (hc : c = '$' ∧ rest.head? = some '{')
    (h2 : rest.tail.takeWhile (fun x => !(x == '}')) ≠ [] ∧
        rest.tail.dropWhile (fun x => !(x == '}')) ≠ []) :
    expandValue lookup (c :: rest) =
      ((lookup ⟨rest.tail.takeWhile (fun x => !(x == '}'))⟩).getD "").data ++
        expandValue lookup (rest.tail.dropWhile (fun x => !(x == '}'))).tail := by
  rw [expandValue, if_pos hc, dif_pos h2]

theorem refs_congr_aux (lookup1 lookup2 : String → Option String) :
    ∀ (n : Nat) (l : List Char), l.length ≤ n →
      (∀ r ∈ expandRefs l, lookup1 r = lookup2 r) →
      expandValue lookup1 l = expandValue lookup2 l := by
  intro n
  induction n with
  | zero =>
    intro l hlen hr
    have hl : l = [] := List.eq_nil_of_length_eq_zero (Nat.le_zero.mp hlen)
    subst hl
    rw [expandValue_nil, expandValue_nil]
  | succ n ih =>
    intro l hlen hr
    cases l with
    | nil => rw [expandValue_nil, expandValue_nil]
    | cons c rest =>
      have hlen1 : rest.length ≤ n := by
        simp only [List.length_cons] at hlen
        omega
      by_cases hc : c = '$' ∧ rest.head? = some '{'
      · by_cases h2 : rest.tail.takeWhile (fun x => !(x == '}')) ≠ [] ∧
            rest.tail.dropWhile (fun x => !(x == '}')) ≠ []
        · have hrefs := expandRefs_cons_match c rest hc h2
          have hlt := expand_dec_main (fun x => !(x == '}')) c rest h2.2
          have hlen2 : ((rest.tail.dropWhile (fun x => !(x == '}'))).tail).length ≤ n := by
            simp only [List.length_cons] at hlt hlen
            omega
          rw [expandValue_cons_match lookup1 c rest hc h2,
            expandValue_cons_match lookup2 c rest hc h2,
            hr _ (by rw [hrefs]; exact List.mem_cons_self _ _),
            ih _ hlen2 (fun r hrm => hr r (by rw [hrefs]; exact List.mem_cons_of_mem _ hrm))]
        · have hrefs := expandRefs_cons_nomatch c rest hc h2
          rw [expandValue_cons_nomatch lookup1 c rest hc h2,
            expandValue_cons_nomatch lookup2 c rest hc h2,
            ih rest hlen1 (fun r hrm => hr r (by rw [hrefs]; exact hrm))]
      · have hrefs := expandRefs_cons_plain c rest hc
        rw [expandValue_cons_plain lookup1 c rest hc,
          expandValue_cons_plain lookup2 c rest hc,
          ih rest hlen1 (fun r hrm => hr r (by rw [hrefs]; exact hrm))]

/-- The one-pass replacement consults the lookup only at the referenced
keys. -/
theorem refs_congr (lookup1 lookup2 : String → Option String) (l : List Char)
    (h : ∀ r ∈ expandRefs l, lookup1 r = lookup2 r) :
    expandValue lookup1 l = expandValue lookup2 l :=
  refs_congr_aux lookup1 lookup2 l.length l (Nat.le_refl _) h

theorem inert_fix_aux : ∀ (n : Nat) (l : List Char), l.length ≤ n →
    expandRefs l = [] → ∀ lookup : String → Option String,
      expandValue lookup l = l := by
  intro n
  induction n with
  | zero =>
    intro l hlen _ lookup
    have hl : l = [] := List.eq_nil_of_length_eq_zero (Nat.le_zero.mp hlen)
    subst hl
    rw [expandValue_nil]
  | succ n ih =>
    intro l hlen hrefs lookup
    cases l with
    | nil => rw [expandValue_nil]
    | cons c rest =>
      have hlen1 : rest.length ≤ n := by
        simp only [List.length_cons] at hlen
        omega
      by_cases hc : c = '$' ∧ rest.head? = some '{'
      · by_cases h2 : rest.tail.takeWhile (fun x => !(x == '}')) ≠ [] ∧
            rest.tail.dropWhile (fun x => !(x == '}')) ≠ []
        · rw [expandRefs_cons_match c rest hc h2] at hrefs
          exact absurd hrefs (by simp)
        · rw [expandRefs_cons_nomatch c rest hc h2] at hrefs
          rw [expandValue_cons_nomatch lookup c rest hc h2, ih rest hlen1 hrefs lookup]
      · rw [expandRefs_cons_plain c rest hc] at hrefs
        rw [expandValue_cons_plain lookup c rest hc, ih rest hlen1 hrefs lookup]

/-- A reference-free value is a fixpoint of the replacement pass, whatever
the mapping. -/
theorem inert_fix (l : List Char) (h : expandRefs l = [])
    (lookup : String → Option String) : expandValue lookup l = l :=
  inert_fix_aux l.length l (Nat.le_refl _) h lookup

/-- Simultaneous one-pass expansion of a value against a fixed mapping. -/
def expandAll (vars : List (String × String)) (v : String) : String :=
  ⟨expandValue (mapGet vars) v.data⟩

/-- The sweep invariant: every entry is still its original value or already
its one-pass expansion against the original mapping. -/
def ExpandInv (vars m : List (String × String)) : Prop :=
  ∀ k, mapGet m k = mapGet vars k ∨
    mapGet m k = (mapGet vars k).map (expandAll vars)

/-- The no-new-references class of mappings: every key referenced by a value
maps (if present) to a reference-free value, and no one-pass expansion of a
value contains a reference. -/
def FlatMapping (vars : List (String × String)) : Prop :=
  (∀ k v, mapGet vars k = some v → ∀ r ∈ expandRefs v.data,
      ∀ w, mapGet vars r = some w → expandRefs w.data = []) ∧
  (∀ k v, mapGet vars k = some v →
      expandRefs (expandValue (mapGet vars) v.data) = [])

theorem mem_keys_of_mapGet {m : List (String × String)} {k v : String}
    (h : mapGet m k = some v) : k ∈ m.map Prod.fst := by
  induction m with
  | nil => exact absurd h (by simp [mapGet])
  | cons kv rest ih =>
    obtain ⟨k0, v0⟩ := kv
    rw [mapGet] at h
    by_cases hk : k0 = k
    · subst hk
      exact List.mem_cons_self _ _
    · rw [if_neg hk] at h
      exact List.mem_cons_of_mem _ (ih h)

/-- One step of a sweep over a `FlatMapping` preserves the invariant, leaves
the processed key at its one-pass expansion, and keeps every entry that is
already expanded. -/
theorem sweepStep_toward (vars : List (String × String)) (hflat : FlatMapping vars)
    (acc : List (String × String) × Bool) (key : String)
    (hinv : ExpandInv vars acc.1) :
    ExpandInv vars (sweepStep acc key).1 ∧
    mapGet (sweepStep acc key).1 key = (mapGet vars key).map (expandAll vars) ∧
    (∀ k, mapGet acc.1 k = (mapGet vars k).map (expandAll vars) →
      mapGet (sweepStep acc key).1 k = (mapGet vars k).map (expandAll vars)) := by
  obtain ⟨hA, hB⟩ := hflat
  cases hg : mapGet acc.1 key with
  | none =>
    have hstep : sweepStep acc key = acc := by
      simp only [sweepStep, hg]
    have hvk : mapGet vars key = none := by
      rcases hinv key with h | h
      · rw [← h]
        exact hg
      · rw [hg] at h
        exact Option.map_eq_none'.mp h.symm
    rw [hstep]
    exact ⟨hinv, by rw [hg, hvk]; rfl, fun k hk => hk⟩
  | some cur =>
    rcases hinv key with hO | hE
    · have hvk : mapGet vars key = some cur := by
        rw [← hO]
        exact hg
      have hlk : ∀ r ∈ expandRefs cur.data, mapGet acc.1 r = mapGet vars r := by
        intro r hrm
        cases hvr : mapGet vars r with
        | none =>
          rcases hinv r with h | h
          · rw [h, hvr]
          · rw [h, hvr]
            rfl
        | some w =>
          have hwin : expandRefs w.data = [] := hA key cur hvk r hrm w hvr
          rcases hinv r with h | h
          · rw [h]
            exact hvr
          · rw [h, hvr]
            have hww : expandAll vars w = w := by
              show (⟨expandValue (mapGet vars) w.data⟩ : String) = w
              rw [inert_fix w.data hwin (mapGet vars)]
            rw [Option.map_some', hww]
      have hnew : expandValue (mapGet acc.1) cur.data = expandValue (mapGet vars) cur.data :=
        refs_congr _ _ cur.data hlk
      by_cases heq : (⟨expandValue (mapGet acc.1) cur.data⟩ : String) = cur
      · have hstep : sweepStep acc key = acc := by
          simp only [sweepStep, hg, if_pos heq]
        have hfix : expandAll vars cur = cur := by
          show (⟨expandValue (mapGet vars) cur.data⟩ : String) = cur
          rw [← hnew]
          exact heq
        rw [hstep]
        exact ⟨hinv, by rw [hg, hvk, Option.map_some', hfix], fun k hk => hk⟩
      · have hstep : sweepStep acc key =
            (mapSet acc.1 key ⟨expandValue (mapGet acc.1) cur.data⟩, true) := by
          simp only [sweepStep, hg, if_neg heq]
        have hkey : mapGet (mapSet acc.1 key ⟨expandValue (mapGet acc.1) cur.data⟩) key =
            (mapGet vars key).map (expandAll vars) := by
          rw [mapGet_mapSet, if_pos rfl, hvk, Option.map_some']
          show some (⟨expandValue (mapGet acc.1) cur.data⟩ : String) = some (expandAll vars cur)
          rw [hnew]
          rfl
        rw [hstep]
        refine ⟨?_, hkey, ?_⟩
        · intro k
          by_cases hk : k = key
          · subst hk
            exact Or.inr hkey
          · rcases hinv k with h | h
            · left
              rw [mapGet_mapSet, if_neg hk]
              exact h
            · right
              rw [mapGet_mapSet, if_neg hk]
              exact h
        · intro k hk
          by_cases hkk : k = key
          · subst hkk
            exact hkey
          · rw [mapGet_mapSet, if_neg hkk]
            exact hk
    · rw [hg] at hE
      cases hvk : mapGet vars key with
      | none =>
        rw [hvk] at hE
        exact absurd hE (by simp)
      | some v =>
        rw [hvk, Option.map_some'] at hE
        have hcur : cur = expandAll vars v := Option.some.inj hE
        have hinert : expandRefs cur.data = [] := by
          rw [hcur]
          exact hB key v hvk
        have heq : (⟨expandValue (mapGet acc.1) cur.data⟩ : String) = cur := by
          rw [inert_fix cur.data hinert (mapGet acc.1)]
        have hstep : sweepStep acc key = acc := by
          simp only [sweepStep, hg, if_pos heq]
        rw [hstep]
        exact ⟨hinv, by rw [hg, Option.map_some', hcur], fun k hk => hk⟩

theorem sweepFold_toward (vars : List (String × String)) (hflat : FlatMapping vars) :
    ∀ (keys : List String) (acc : List (String × String) × Bool),
      ExpandInv vars acc.1 →
      ExpandInv vars ((keys.foldl sweepStep acc).1) ∧
      ∀ k, (k ∈ keys ∨ mapGet acc.1 k = (mapGet vars k).map (expandAll vars)) →
        mapGet ((keys.foldl sweepStep acc).1) k = (mapGet vars k).map (expandAll vars) := by
  intro keys
  induction keys with
  | nil =>
    intro acc hinv
    exact ⟨hinv, fun k hk => hk.elim (fun h => absurd h (List.not_mem_nil k)) id⟩
  | cons key rest ih =>
    intro acc hinv
    obtain ⟨hinv1, hkey, hpres⟩ := sweepStep_toward vars hflat acc key hinv
    obtain ⟨hinv2, hpt⟩ := ih (sweepStep acc key) hinv1
    rw [List.foldl_cons]
    refine ⟨hinv2, ?_⟩
    intro k hk
    rcases hk with hmem | hpost
    · rcases List.mem_cons.mp hmem with rfl | hmem1
      · exact hpt k (Or.inr hkey)
      · exact hpt k (Or.inl hmem1)
    · exact hpt k (Or.inr (hpres k hpost))

theorem sweepStep_frozen (m : List (String × String)) (b : Bool) (key : String)
    (h : ∀ w, mapGet m key = some w → expandRefs w.data = []) :
    sweepStep (m, b) key = (m, b) := by
  cases hg : mapGet m key with
  | none => simp only [sweepStep, hg]
  | some w =>
    have heq : (⟨expandValue (mapGet m) w.data⟩ : String) = w := by
      rw [inert_fix w.data (h w hg) (mapGet m)]
    simp only [sweepStep, hg, if_pos heq]

theorem sweepFold_frozen (keys : List String) (m : List (String × String))
    (h : ∀ k w, mapGet m k = some w → expandRefs w.data = []) :
    keys.foldl sweepStep (m, false) = (m, false) := by
  induction keys with
  | nil => rfl
  | cons key rest ih =>
    rw [List.foldl_cons, sweepStep_frozen m false key (h key), ih]

theorem expandFuel_one_frozen (m : List (String × String))
    (h : ∀ k w, mapGet m k = some w → expandRefs w.data = []) :
    expandVariablesFuel 1 m = some m := by
  show expandVariablesFuel (0 + 1) m = some m
  rw [expandVariablesFuel, sweepFold_frozen (m.map Prod.fst) m h]
  rfl

/-- On any `FlatMapping` the expansion loop terminates: the first sweep
replaces every value by its one-pass expansion against the original mapping,
and the second sweep (when the first set `changed`) confirms the fixpoint. -/
theorem expand_terminates_of_flat (vars : List (String × String))
    (hflat : FlatMapping vars) :
    ∃ vars2, expandVariablesFuel 2 vars = some vars2 ∧
      ∀ k, mapGet vars2 k = (mapGet vars k).map (expandAll vars) := by
  obtain ⟨hinv1, hpt⟩ := sweepFold_toward vars hflat (vars.map Prod.fst) (vars, false)
    (fun k => Or.inl rfl)
  have hchar : ∀ k, mapGet (((vars.map Prod.fst).foldl sweepStep (vars, false)).1) k =
      (mapGet vars k).map (expandAll vars) := by
    intro k
    cases hg : mapGet vars k with
    | some v =>
      rw [← hg]
      exact hpt k (Or.inl (mem_keys_of_mapGet hg))
    | none =>
      rcases hinv1 k with h | h
      · rw [h, hg]
        rfl
      · rw [h, hg]
  have hfrozen : ∀ k w,
      mapGet (((vars.map Prod.fst).foldl sweepStep (vars, false)).1) k = some w →
      expandRefs w.data = [] := by
    intro k w hw
    rw [hchar k] at hw
    cases hg : mapGet vars k with
    | none =>
      rw [hg] at hw
      exact absurd hw (by simp)
    | some v =>
      rw [hg, Option.map_some'] at hw
      rw [← Option.some.inj hw]
      exact hflat.2 k v hg
  refine ⟨((vars.map Prod.fst).foldl sweepStep (vars, false)).1, ?_, hchar⟩
  show expandVariablesFuel (1 + 1) vars =
    some (((vars.map Prod.fst).foldl sweepStep (vars, false)).1)
  rw [expandVariablesFuel]
  by_cases hfl : (((vars.map Prod.fst).foldl sweepStep (vars, false)).2) = true
  · rw [if_pos hfl]
    exact expandFuel_one_frozen _ hfrozen
  · rw [if_neg hfl]

/-- C9 (counterexample): on the mapping `A = "$\x7bA\x7dx"` the
variable-expansion pass never terminates — each sweep replaces the
self-reference by the current value, which grows by the trailing `x`-run, so
`changed` is set on every iteration of the `while` loop and no fuel bound is
ever enough; in particular five sweeps still have not stopped changing.  The
spec's claim that the pass always terminates at a fixpoint is false. -/
theorem expansion_never_reaches_fixpoint :
    expandDiverges [("A", "${A}x")] ∧
      expandVariablesFuel 5 [("A", "${A}x")] = none := by
  have hstr : ("${A}x" : String) = ⟨'$' :: '{' :: 'A' :: '}' :: ['x']⟩ := rfl
  have hmain : expandDiverges [("A", (⟨'$' :: '{' :: 'A' :: '}' :: ['x']⟩ : String))] :=
    fun fuel => diverge_aux fuel ['x'] (by simp) (by decide)
  constructor
  · rw [hstr]
    exact hmain
  · rw [hstr]
    exact hmain 5

/-- C9 (amended): what does hold of the expansion pass.  (1) Whenever the
`while (changed)` loop does stop (the fueled model returns a mapping), the
result is a fixpoint: one further sweep changes nothing.  (2) A single
replacement pass substitutes each well-formed reference by the mapped value
of the referenced key, an absent key expanding to the empty string.  (3) For
every mapping of the no-new-references class `FlatMapping` — each key a
value references maps, if present, to a reference-free value, and no
substitution result contains a reference — the loop terminates within two
sweeps, every value replaced by its one-pass expansion against the original
mapping.  (4) A concrete such mapping, with one present and one absent
reference, computed end to end. -/
theorem expansion_fixpoint_characterization :
    (∀ fuel (vars vars' : List (String × String)),
        expandVariablesFuel fuel vars = some vars' →
        expandVariablesFuel 1 vars' = some vars') ∧
    (∀ (lookup : String → Option String) (name t : List Char),
        name ≠ [] → (∀ c ∈ name, ¬(c = '}')) →
        expandValue lookup ('$' :: '{' :: (name ++ '}' :: t)) =
          ((lookup ⟨name⟩).getD "").data ++ expandValue lookup t) ∧
    (∀ vars : List (String × String), FlatMapping vars →
        ∃ vars2, expandVariablesFuel 2 vars = some vars2 ∧
          ∀ k, mapGet vars2 k = (mapGet vars k).map (expandAll vars)) ∧
    expandVariablesFuel 2 [("B", "b"), ("U", "${B}"), ("M", "${Z}")] =
      some [("B", "b"), ("U", "b"), ("M", "")] := by
  refine ⟨expandFuel_fixpoint, expandValue_ref, expand_terminates_of_flat, ?_⟩
  have h0 : ([("B", "b"), ("U", "${B}"), ("M", "${Z}")] : List (String × String)) =
      [((⟨['B']⟩ : String), (⟨['b']⟩ : String)),
       ((⟨['U']⟩ : String), (⟨['$', '{', 'B', '}']⟩ : String)),
       ((⟨['M']⟩ : String), (⟨['$', '{', 'Z', '}']⟩ : String))] := rfl
  rw [h0]
  simp [expandVariablesFuel, sweepStep, expandValue, mapGet, mapSet,
    List.takeWhile_cons, List.dropWhile_cons,
    show ("" : String).data = ([] : List Char) from rfl]
